import Mathlib

/-!
Verification of the ai-renamer core against its specification.

The JavaScript sources (src/detectPitchDeck.js, src/getNewName.js,
src/processFile.js) are shallowly embedded below.  JS strings are modelled
as `List Char` (one entry per code point; JS `.length` counts UTF-16 units,
which agrees on the BMP inputs considered here).  JS `number` values that
can be non-finite are modelled as `Option ℚ` (`none` = NaN/±Infinity);
float arithmetic on the small constants involved (0.25, 0.5, 0.6, 1.5,
0.75, 3.5) is exact in IEEE doubles for the value ranges reached, so it is
modelled with exact rational arithmetic.  Unicode-aware character classes
(`\p{L}`, `\p{N}`, `\s`, `toLowerCase`) are modelled on their ASCII parts,
which covers every keyword constant and counterexample in this file.
-/

namespace AiRenamer

/-- JS string, modelled as a list of characters. -/
abbrev JStr := List Char

/-- Characters treated as whitespace by the JS `\s` class and `trim`
(ASCII part: space, tab, LF, CR, vertical tab, form feed). -/
def isWS (c : Char) : Bool :=
  c = ' ' || c = '\t' || c = '\n' || c = '\x0d' || c = Char.ofNat 11 || c = Char.ofNat 12

/-- JS `String.prototype.trim`. -/
def trimJS (s : JStr) : JStr :=
  (s.dropWhile isWS).reverse.dropWhile isWS |>.reverse

/-- JS `String.prototype.toLowerCase` (ASCII part). -/
def lowerJS (s : JStr) : JStr := s.map Char.toLower

/-- Whether `pat` occurs as a contiguous substring of `text`
(JS `String.prototype.includes`). -/
def containsSub (text pat : JStr) : Bool :=
  match text with
  | [] => pat.isEmpty
  | _ :: rest => pat.isPrefixOf text || containsSub rest pat

/-- JS `text.split(/\r?\n/)`. -/
def splitLinesJS : JStr → List JStr
  | [] => [[]]
  | '\x0d' :: '\n' :: rest => [] :: splitLinesJS rest
  | '\n' :: rest => [] :: splitLinesJS rest
  | c :: rest =>
    match splitLinesJS rest with
    | s :: ss => (c :: s) :: ss
    | [] => [[c]]

/-- JS `text.split(/\s+/)` after a `trim` — the nonempty whitespace-separated
words of a string.  (JS keeps a leading empty token when the string starts
with whitespace; every call site in the sources trims first, where the two
agree, and an empty token is skipped by each consuming loop anyway.) -/
def splitWsJS (s : JStr) : List JStr :=
  (s.splitOnP (fun c => isWS c)).filter (fun w => !w.isEmpty)

/-- JS `parts.join(' ')`. -/
def joinSpace (parts : List JStr) : JStr := List.intercalate [' '] parts

/-! ### detectPitchDeck.js : keyword constants -/

/-- `STRONG_KEYWORDS` of detectPitchDeck.js. -/
def STRONG_KEYWORDS : List JStr :=
  ["pitch deck", "investor deck", "investor presentation", "fundraising deck",
   "fund raising deck", "fundraise deck"].map String.toList

/-- `FUNDING_KEYWORDS` of detectPitchDeck.js. -/
def FUNDING_KEYWORDS : List JStr :=
  ["seed round", "pre-seed", "series a", "series b", "series c", "series d",
   "series e", "bridge round", "angel round", "vc round", "funding round",
   "capital raise", "venture round"].map String.toList

/-- `INVESTOR_KEYWORDS` of detectPitchDeck.js. -/
def INVESTOR_KEYWORDS : List JStr :=
  ["investor", "investment", "venture capital", "vc", "capital raise",
   "fundraising", "fund raising", "term sheet"].map String.toList

/-- `SECTION_KEYWORDS` of detectPitchDeck.js. -/
def SECTION_KEYWORDS : List JStr :=
  ["problem", "solution", "market", "market size", "market opportunity",
   "product", "business model", "traction", "financials",
   "financial projections", "go-to-market", "go to market",
   "competitive landscape", "competition", "team", "roadmap", "use of funds",
   "funds use", "revenue", "milestones", "ask", "summary"].map String.toList

/-- `collectMatches` of detectPitchDeck.js: the keywords contained in the
text, in keyword-list order. -/
def collectMatches (text : JStr) (keywords : List JStr) : List JStr :=
  keywords.filter (fun k => containsSub text k)

/-- The score computed by detectPitchDeck.js lines 146-161 from the four
category match counts (exact in IEEE doubles, modelled in ℚ). -/
def confidenceScoreOf (strong funding investor sect : Nat) : ℚ :=
  (if strong > 0 then 4 else 0)
  + (if funding > 0 then ((min funding 2 : Nat) : ℚ) * (3/2) else 0)
  + (if investor > 0 then ((min investor 3 : Nat) : ℚ) * (3/4) else 0)
  + (if sect > 0 then
      ((min sect 6 : Nat) : ℚ) * (1/2) + (if sect ≥ 4 then 2 else 0)
     else 0)

/-- `labelConfidence` of detectPitchDeck.js. -/
def labelConfidence (score : ℚ) : String :=
  if score ≥ 6 then "high"
  else if score ≥ 4 then "medium"
  else if score ≥ 2 then "low"
  else "none"

/-! ### detectPitchDeck.js : COMPANY_REGEX and extractCompanyCandidates

`COMPANY_REGEX` is
`([A-Z][A-Za-z0-9&']+(?:\s+[A-Z][A-Za-z0-9&']+)*)\s+(?:Inc\.?|Incorporated|Corp\.?|Corporation|LLC|L\.L\.C\.|Ltd\.?|Limited|Company|Co\.?)`
run with `exec` and the `g` flag over each line.  The greedy character-class
runs (`[A-Za-z0-9&']+`, `\s+`) never need to backtrack because the character
required after each run is disjoint from the run's class; the only
backtracking point is the word-repetition star, tried greedily, and the
suffix alternation, tried in source order (committed, since nothing after it
can fail).  The model below compiles exactly that search. -/

/-- The `[A-Z]` class. -/
def isUpperAZ (c : Char) : Bool := 'A' ≤ c && c ≤ 'Z'

/-- The `[A-Za-z0-9&']` class of COMPANY_REGEX. -/
def isCompanyWordChar (c : Char) : Bool :=
  isUpperAZ c || ('a' ≤ c && c ≤ 'z') || ('0' ≤ c && c ≤ '9') ||
    c = '&' || c = Char.ofNat 39

/-- Length of the maximal run of characters satisfying `p` at the front. -/
def runLen (p : Char → Bool) (cs : JStr) : Nat := (cs.takeWhile p).length

/-- Match `[A-Z][A-Za-z0-9&']+` at the front; returns the consumed length. -/
def capWordLen (cs : JStr) : Option Nat :=
  match cs with
  | [] => none
  | c :: rest =>
    if isUpperAZ c then
      let n := runLen isCompanyWordChar rest
      if n ≥ 1 then some (1 + n) else none
    else none

/-- End positions reachable by the star `(?:\s+[A-Z][A-Za-z0-9&']+)*` from
position `p` of `cs`, greediest first (the order `exec` backtracks in).
Each iteration consumes at least two characters, so fuel `cs.length`
is never exhausted. -/
def starEnds (cs : JStr) (p : Nat) : Nat → List Nat
  | 0 => [p]
  | fuel + 1 =>
    let rest := cs.drop p
    let w := runLen isWS rest
    if w = 0 then [p]
    else
      match capWordLen (rest.drop w) with
      | none => [p]
      | some k => starEnds cs (p + w + k) fuel ++ [p]

/-- The corporate-suffix alternatives of COMPANY_REGEX in source order;
`true` marks an alternative followed by an optional literal dot (`\.?`). -/
def companySuffixAlts : List (JStr × Bool) :=
  [("Inc".toList, true), ("Incorporated".toList, false),
   ("Corp".toList, true), ("Corporation".toList, false),
   ("LLC".toList, false), ("L.L.C.".toList, false),
   ("Ltd".toList, true), ("Limited".toList, false),
   ("Company".toList, false), ("Co".toList, true)]

/-- Match the suffix alternation at the front of `cs`; returns the consumed
length of the first alternative that matches (ordered alternation). -/
def companySuffixLen (cs : JStr) : Option Nat :=
  companySuffixAlts.findSome? fun alt =>
    if alt.1.isPrefixOf cs then
      some (alt.1.length +
        (if alt.2 && (cs.drop alt.1.length).head? = some '.' then 1 else 0))
    else none

/-- Try COMPANY_REGEX anchored at the front of `cs`: returns the overall
match length and the capture group (the company-name words). -/
def companyMatchAt (cs : JStr) : Option (Nat × JStr) :=
  match capWordLen cs with
  | none => none
  | some w0 =>
    (starEnds cs w0 cs.length).findSome? fun p =>
      let rest := cs.drop p
      let w := runLen isWS rest
      if w = 0 then none
      else
        match companySuffixLen (rest.drop w) with
        | none => none
        | some sl => some (p + w + sl, cs.take p)

/-- The `while ((match = COMPANY_REGEX.exec(line)) !== null)` loop: scan left
to right, emit each capture, resume after the end of each match.  A match
always has positive length (at least five characters), so the `max · 1`
taken for termination never changes the resume position. -/
def execCompanyGo : Nat → JStr → List JStr
  | 0, _ => []
  | fuel + 1, cs =>
    match cs with
    | [] => []
    | _ :: rest =>
      match companyMatchAt cs with
      | some (len, cap) => cap :: execCompanyGo fuel (cs.drop (max len 1))
      | none => execCompanyGo fuel rest

/-- All captures of COMPANY_REGEX over one line, in match order. -/
def execCompanyLine (line : JStr) : List JStr := execCompanyGo line.length line

/-- The raw values handed to `consider` by the first pass of
`extractCompanyCandidates` (detectPitchDeck.js lines 93-98). -/
def firstPassRaw (lines : List JStr) : List JStr := lines.flatMap execCompanyLine

/-- The `/^(?:[A-Z][A-Z0-9&']+)$/` test of the fallback pass. -/
def isUpperToken (w : JStr) : Bool :=
  match w with
  | [] => false
  | c :: rest =>
    isUpperAZ c && rest.length ≥ 1 &&
      rest.all (fun d => isUpperAZ d || ('0' ≤ d && d ≤ '9') || d = '&' ||
        d = Char.ofNat 39)

/-- The raw values handed to `consider` by the fallback pass of
`extractCompanyCandidates` (detectPitchDeck.js lines 100-110): short lines
of 2-8 words with an uppercase-word ratio of at least 0.6 (the ratio test
`count/words.length >= 0.6` is exact for 2-8 words, see the float note in
the header; `5*count ≥ 3*length` is the same predicate). -/
def fallbackRaw (lines : List JStr) : List JStr :=
  lines.filterMap fun line =>
    if line.isEmpty || line.length > 120 then none
    else
      let words := splitWsJS (trimJS line)
      if words.length < 2 || words.length > 8 then none
      else if 5 * (words.filter isUpperToken).length ≥ 3 * words.length then
        some (joinSpace words)
      else none

/-- One step of `consider` (detectPitchDeck.js lines 83-91), threading the
`seen` set (modelled as the list of lowercased candidates) and the
accumulated candidate list. -/
def considerStep (st : List JStr × List JStr) (v : JStr) : List JStr × List JStr :=
  let trimmed := trimJS v
  if trimmed.isEmpty then st
  else if trimmed.length < 3 then st
  else
    let norm := lowerJS trimmed
    if norm ∈ st.1 then st else (norm :: st.1, st.2 ++ [trimmed])

/-- `extractCompanyCandidates` of detectPitchDeck.js: first pass over the
regex captures; the fallback pass runs only when the candidate list is
still empty, continuing with the same (then necessarily empty) state. -/
def extractCompanyCandidates (lines : List JStr) : List JStr :=
  let s1 := (firstPassRaw lines).foldl considerStep ([], [])
  let s2 := if s1.2.isEmpty then (fallbackRaw lines).foldl considerStep s1 else s1
  s2.2

/-! ### detectPitchDeck.js : the exported classifier -/

/-- The record returned by detectPitchDeck.js (the human-readable `summary`
string, which no claim mentions, is omitted). -/
structure DetectResult where
  isPitchDeck : Bool
  confidenceScore : ℚ
  confidence : String
  matchedKeywords : List JStr
  fundingMentions : List JStr
  investorMentions : List JStr
  sectionMentions : List JStr
  companyCandidates : List JStr
  sampleTitle : Option JStr
  deriving DecidableEq, Repr

/-- The fixed record returned for absent/null/empty text
(detectPitchDeck.js lines 122-136). -/
def degenerateResult : DetectResult :=
  { isPitchDeck := false
    confidenceScore := 0
    confidence := "none"
    matchedKeywords := []
    fundingMentions := []
    investorMentions := []
    sectionMentions := []
    companyCandidates := []
    sampleTitle := none }

/-- The `/deck|presentation|investor|fund/i` test of line 170. -/
def isInterestingLine (line : JStr) : Bool :=
  containsSub (lowerJS line) "deck".toList ||
  containsSub (lowerJS line) "presentation".toList ||
  containsSub (lowerJS line) "investor".toList ||
  containsSub (lowerJS line) "fund".toList

/-- The nonempty trimmed lines of the scanned text (lines 165-168). -/
def nonemptyLines (limited : JStr) : List JStr :=
  ((splitLinesJS limited).map trimJS).filter (fun l => !l.isEmpty)

/-- detectPitchDeck.js `module.exports`: `text` is `none` for an absent or
null field and `some []` for the empty string (both falsy in JS). -/
def detectPitchDeck (text : Option JStr) (maxChars : Nat := 20000) : DetectResult :=
  match text with
  | none => degenerateResult
  | some t =>
    if t.isEmpty then degenerateResult
    else
      let limited := t.take maxChars
      let normalized := lowerJS limited
      let strongMatches := collectMatches normalized STRONG_KEYWORDS
      let fundingMatches := collectMatches normalized FUNDING_KEYWORDS
      let investorMatches := collectMatches normalized INVESTOR_KEYWORDS
      let sectionMatches := collectMatches normalized SECTION_KEYWORDS
      let score := confidenceScoreOf strongMatches.length fundingMatches.length
        investorMatches.length sectionMatches.length
      let lines := nonemptyLines limited
      { isPitchDeck :=
          decide (score ≥ 7/2) || decide (strongMatches.length > 0) ||
            decide (sectionMatches.length ≥ 4)
        confidenceScore := score
        confidence := labelConfidence score
        matchedKeywords := strongMatches
        fundingMentions := fundingMatches
        investorMentions := investorMatches
        sectionMentions := sectionMatches
        companyCandidates := extractCompanyCandidates (lines.take 40)
        sampleTitle :=
          match lines.find? isInterestingLine with
          | some l => some l
          | none => lines.head? }

/-! ### Specification-side characterization of extractCompanyCandidates -/

/-- First-seen case-insensitive deduplication, threading the set of
lowercased strings already seen. -/
def dedupGo (seen : List JStr) : List JStr → List JStr
  | [] => []
  | x :: xs =>
    if lowerJS x ∈ seen then dedupGo seen xs
    else x :: dedupGo (lowerJS x :: seen) xs

/-- First-seen case-insensitive deduplication of a list of strings. -/
def dedupCI (l : List JStr) : List JStr := dedupGo [] l

/-- What `consider` keeps of a raw value before deduplication: the value is
trimmed and must be at least 3 characters long. -/
def considerPrep (vals : List JStr) : List JStr :=
  (vals.map trimJS).filter (fun t => decide (3 ≤ t.length))

/-! ### getNewName.js : sanitization helpers -/

/-- Case-insensitive literal prefix test; `lit` is given in lowercase. -/
def startsWithCI (lit cs : JStr) : Bool :=
  decide (lit.length ≤ cs.length) && lowerJS (cs.take lit.length) == lit

/-- The quote characters removed by `QUOTE_REGEX` (backtick, double quote,
straight apostrophe, curly double and single quotes). -/
def isQuoteChar (c : Char) : Bool :=
  c = Char.ofNat 96 || c = '"' || c = Char.ofNat 39 ||
  c = Char.ofNat 0x201C || c = Char.ofNat 0x201D ||
  c = Char.ofNat 0x2018 || c = Char.ofNat 0x2019

/-- Characters kept by `INVALID_FILENAME_CHARS` (`[^\p{L}\p{N}\s_-]`): the
letter and digit classes are modelled on their ASCII parts. -/
def isFilenameChar (c : Char) : Bool :=
  c.isAlpha || c.isDigit || isWS c || c = '_' || c = '-'

/-- The label alternatives of `LABEL_REGEX`, in source (alternation) order. -/
def labelWords : List JStr :=
  ["filename", "file name", "suggested filename", "suggested file name",
   "name", "title"].map String.toList

/-- Length consumed by `LABEL_REGEX`
(`^(?:filename|...|title)\s*(?:is|=|:)?\s*`, case-insensitive) when it
matches at the front, `none` otherwise.  The alternations are committed in
source order: everything after them is optional, so a first match can
never be backtracked into. -/
def labelMatchLen (cs : JStr) : Option Nat :=
  (labelWords.findSome? fun w =>
    if startsWithCI w cs then some w.length else none).map fun n =>
    let n1 := n + runLen isWS (cs.drop n)
    let n2 :=
      match (["is", "=", ":"].map String.toList).findSome? (fun tok =>
          if startsWithCI tok (cs.drop n1) then some tok.length else none) with
      | some k => n1 + k
      | none => n1
    n2 + runLen isWS (cs.drop n2)

/-- `withoutQuotes.replace(LABEL_REGEX, '')`. -/
def stripLabel (cs : JStr) : JStr :=
  match labelMatchLen cs with
  | some n => cs.drop n
  | none => cs

/-- Collapse whitespace runs to single spaces and trim
(`.replace(/\s+/g, ' ').trim()`). -/
def collapseTrimWs (s : JStr) : JStr := joinSpace (splitWsJS s)

/-- `sanitizeSegment` of getNewName.js.  Replacing each run of invalid
characters by one space (`/[^...]+/gu` with a one-space replacement) and
then collapsing whitespace is, after the collapse, the same as replacing
the characters one by one, which is how the run replacement is modelled. -/
def sanitizeSegment (segment : JStr) : JStr :=
  if segment.isEmpty then []
  else
    let withoutQuotes := segment.filter (fun c => !isQuoteChar c)
    let withoutLabel := stripLabel withoutQuotes
    collapseTrimWs (withoutLabel.map (fun c => if isFilenameChar c then c else ' '))

/-- The word-accumulation loop of `shortenToLimit`: extend the candidate
with the next word while the joined length stays within the limit, stop at
the first word that would overflow. -/
def shortenGo (limit : Nat) (candidate : JStr) : List JStr → JStr
  | [] => candidate
  | w :: ws =>
    let next := if candidate.isEmpty then w else candidate ++ ' ' :: w
    if next.length > limit then candidate else shortenGo limit next ws

/-- `shortenToLimit` of getNewName.js (the falsy `!limit` guard is `limit = 0`
for the natural-number limits used at every call site). -/
def shortenToLimit (text : JStr) (limit : Nat) : JStr :=
  if text.isEmpty || limit = 0 || decide (text.length ≤ limit) then text
  else
    let candidate := shortenGo limit [] (splitWsJS text)
    if candidate.isEmpty then text.take limit else candidate

/-! ### getNewName.js : length enforcement -/

/-- JS `text.split(sep)` for a single-character separator. -/
def splitOnCharJS (sep : Char) : JStr → List JStr
  | [] => [[]]
  | c :: rest =>
    if c = sep then [] :: splitOnCharJS sep rest
    else
      match splitOnCharJS sep rest with
      | s :: ss => (c :: s) :: ss
      | [] => [[c]]

/-- The part-accumulation loop of `applySeparator` inside `trimToBoundary`:
skip empty parts, extend the result while it fits, break at the first
overflow. -/
def applyGo (sep : Char) (limit : Nat) : List JStr → JStr → JStr
  | [], result => result
  | p :: rest, result =>
    if p.isEmpty then applyGo sep limit rest result
    else
      let next := if result.isEmpty then p else result ++ sep :: p
      if next.length > limit then result else applyGo sep limit rest next

/-- `applySeparator` of `trimToBoundary`. -/
def applySeparator (sep : Char) (text : JStr) (limit : Nat) : JStr :=
  if ¬ text.contains sep then []
  else applyGo sep limit (splitOnCharJS sep text) []

/-- `.replace(/[-_]+$/g, '')`. -/
def stripTrailingSeps (s : JStr) : JStr :=
  (s.reverse.dropWhile (fun c => c = '-' || c = '_')).reverse

/-- `trimToBoundary` of getNewName.js. -/
def trimToBoundary (text : JStr) (limit : Nat) : JStr :=
  if text.isEmpty || limit = 0 || decide (text.length ≤ limit) then text
  else
    let byHyphen := applySeparator '-' text limit
    if ¬ byHyphen.isEmpty then byHyphen
    else
      let byUnderscore := applySeparator '_' text limit
      if ¬ byUnderscore.isEmpty then byUnderscore
      else stripTrailingSeps (text.take limit)

/-- `enforceLengthLimit` of getNewName.js.  Every call site passes the
natural number `safeCharLimit`, for which the JS guard
`!Number.isFinite(limit) || limit <= 0` is `limit = 0`. -/
def enforceLengthLimit (value : JStr) (limit : Nat) : JStr :=
  if value.isEmpty then value
  else if limit = 0 then value
  else if value.length ≤ limit then value
  else
    let t := trimToBoundary value limit
    if t.isEmpty then value.take limit else t

/-! ### getNewName.js : soft truncation of the content snippet -/

/-- Index of the last occurrence of character `c` (JS `lastIndexOf`,
`none` for -1). -/
def lastIndexOfChar (c : Char) (s : JStr) : Option Nat :=
  match s.reverse.findIdx? (· = c) with
  | some j => some (s.length - 1 - j)
  | none => none

/-- Index of the last occurrence of the two-character pattern `a, b`
(JS `lastIndexOf` on a two-character string, `none` for -1). -/
def lastIndexOfPair (a b : Char) : JStr → Option Nat
  | [] => none
  | [_] => none
  | x :: y :: rest =>
    match lastIndexOfPair a b (y :: rest) with
    | some i => some (i + 1)
    | none => if x = a && y = b then some 0 else none

/-- JS `Math.max` over the three sentence-break `lastIndexOf` results,
with `none` playing -1. -/
def max3Opt (a b c : Option Nat) : Option Nat :=
  let iOf : Option Nat → Int := fun o => o.elim (-1) Int.ofNat
  let m := max (max (iOf a) (iOf b)) (iOf c)
  if m < 0 then none else some m.toNat

/-- `softTruncate` of getNewName.js.  `Math.floor(limit*0.6)` and
`Math.floor(limit*0.5)` are modelled as `6*limit/10` and `limit/2`
(see the float note in the header). -/
def softTruncate (text : JStr) (limit : Nat) : JStr :=
  if text.isEmpty || limit = 0 then []
  else if text.length ≤ limit then text
  else
    let slice := text.take limit
    let newlinePart :=
      match lastIndexOfChar '\n' slice with
      | some i => if 6 * limit / 10 ≤ i then some (trimJS (slice.take i)) else none
      | none => none
    match newlinePart with
    | some r => r
    | none =>
      match max3Opt (lastIndexOfPair '.' ' ' slice) (lastIndexOfPair '!' ' ' slice)
          (lastIndexOfPair '?' ' ' slice) with
      | some i => if limit / 2 ≤ i then trimJS (slice.take (i + 1)) else trimJS slice
      | none => trimJS slice

/-! ### Lemmas about whitespace collapsing (for C7 and C8) -/

/-- The character alphabet of claim C8: letters, digits, spaces, hyphens. -/
def cleanChars (c : Char) : Bool :=
  c.isAlpha || c.isDigit || c = ' ' || c = '-'

/-! ### C6 : boundary-aware length enforcement -/

/-- Join parts with a single separator character. -/
def joinSep (sep : Char) (parts : List JStr) : JStr := List.intercalate [sep] parts

/-- The nonempty `sep`-separated parts of a string (the parts `applySeparator`
does not skip). -/
def sepParts (sep : Char) (text : JStr) : List JStr :=
  (splitOnCharJS sep text).filter (fun p => !p.isEmpty)

/-- A usable cut boundary for claim C6: an occurrence of the separator at an
index within the limit, with some non-separator character before it (so that
cutting there keeps a nonempty token prefix). -/
def HasBoundaryCut (sep : Char) (text : JStr) (limit : Nat) : Prop :=
  ∃ i, i ≤ limit ∧ text[i]? = some sep ∧
    ∃ j c, j < i ∧ text[j]? = some c ∧ c ≠ sep

/-! ### getNewName.js : extractFilenameCandidate

The three labelled-value regexes are unanchored searches.  As for
COMPANY_REGEX, the greedy `\s*` runs and `[^\n]+` captures never backtrack
against the inputs reachable here (the searched text is trimmed, so no
all-whitespace tail follows a matched label inside the string), the label
alternations have pairwise-incompatible prefixes at any one position, and
the only real backtracking point — the optional `(?:is|=|:)?` group, whose
failure falls through to its empty alternative — is modelled explicitly. -/

/-- Scan positions left to right, returning the first anchored match of
`f` (all three patterns need at least one character, so the empty suffix
never matches). -/
def searchPos (f : JStr → Option JStr) : JStr → Option JStr
  | [] => none
  | c :: rest =>
    match f (c :: rest) with
    | some r => some r
    | none => searchPos f rest

/-- The `([^\n]+)` capture: the run up to the next newline, failing when
empty. -/
def capToLineEnd (cs : JStr) : Option JStr :=
  let cap := cs.takeWhile (fun c => !(c = '\n'))
  if cap.isEmpty then none else some cap

/-- `\s*(?:is|=|:)\s*([^\n]+)` (the separator is required, as in the first
pattern regex). -/
def patRequiredTail (cs : JStr) : Option JStr :=
  let n1 := runLen isWS cs
  (["is", "=", ":"].map String.toList).findSome? fun tok =>
    if startsWithCI tok (cs.drop n1) then
      let n2 := n1 + tok.length
      capToLineEnd (cs.drop (n2 + runLen isWS (cs.drop n2)))
    else none

/-- `\s*(?:is|=|:)?\s*([^\n]+)` (optional separator: a failing separator
alternative backtracks to the empty alternative). -/
def patOptionalTail (cs : JStr) : Option JStr :=
  let n1 := runLen isWS cs
  match (["is", "=", ":"].map String.toList).findSome? (fun tok =>
      if startsWithCI tok (cs.drop n1) then
        let n2 := n1 + tok.length
        capToLineEnd (cs.drop (n2 + runLen isWS (cs.drop n2)))
      else none) with
  | some r => some r
  | none => capToLineEnd (cs.drop n1)

/-- `/(?:filename|file name)\s*(?:is|=|:)\s*([^\n]+)/i`. -/
def regex1Search (normalized : JStr) : Option JStr :=
  searchPos (fun cs =>
    (["filename", "file name"].map String.toList).findSome? fun lit =>
      if startsWithCI lit cs then patRequiredTail (cs.drop lit.length) else none)
    normalized

/-- `/(?:suggested|proposed|recommended)\s*(?:filename|file name)\s*(?:is|=|:)?\s*([^\n]+)/i`. -/
def regex2Search (normalized : JStr) : Option JStr :=
  searchPos (fun cs =>
    (["suggested", "proposed", "recommended"].map String.toList).findSome? fun lit1 =>
      if startsWithCI lit1 cs then
        let n1 := lit1.length + runLen isWS (cs.drop lit1.length)
        (["filename", "file name"].map String.toList).findSome? fun lit2 =>
          if startsWithCI lit2 (cs.drop n1) then
            patOptionalTail (cs.drop (n1 + lit2.length))
          else none
      else none)
    normalized

/-- `/name\s*[:：]\s*([^\n]+)/i`. -/
def regex3Search (normalized : JStr) : Option JStr :=
  searchPos (fun cs =>
    if startsWithCI "name".toList cs then
      let n1 := 4 + runLen isWS (cs.drop 4)
      match (cs.drop n1).head? with
      | some c2 =>
        if c2 = ':' || c2 = Char.ofNat 0xFF1A then
          capToLineEnd (cs.drop (n1 + 1 + runLen isWS (cs.drop (n1 + 1))))
        else none
      | none => none
    else none)
    normalized

/-- JS `normalized.split(/[,;]+/)`: runs of commas/semicolons separate; the
fuel `length + 1` is never exhausted since every step consumes at least one
character or ends. -/
def splitCommaSemiGo : Nat → JStr → List JStr
  | 0, _ => []
  | fuel + 1, s =>
    let head := s.takeWhile (fun c => !(c = ',' || c = ';'))
    let rest := s.drop head.length
    match rest with
    | [] => [head]
    | _ => head :: splitCommaSemiGo fuel (rest.dropWhile (fun c => c = ',' || c = ';'))

/-- JS `normalized.split(/[,;]+/)`. -/
def splitCommaSemi (s : JStr) : List JStr := splitCommaSemiGo (s.length + 1) s

/-- The candidate-segment loop of `extractFilenameCandidate` (getNewName.js
lines 59-70): sanitize, skip empties and case-insensitive duplicates,
return the first surviving segment shortened to the ceiling. -/
def extractLoop (maxChars : Nat) : List JStr → List JStr → Option JStr
  | _, [] => none
  | seen, seg :: rest =>
    let cleaned := sanitizeSegment seg
    if cleaned.isEmpty then extractLoop maxChars seen rest
    else
      let key := lowerJS cleaned
      if key ∈ seen then extractLoop maxChars seen rest
      else
        let shortened := shortenToLimit cleaned maxChars
        if shortened.isEmpty then extractLoop maxChars (key :: seen) rest
        else some shortened

/-- `extractFilenameCandidate` of getNewName.js; `mr` is the raw model
reply (`none` for a missing reply). -/
def extractFilenameCandidate (mr : Option JStr) (maxChars : Nat) : JStr :=
  match mr with
  | none => []
  | some m =>
    if m.isEmpty then []
    else
      let normalized := trimJS
        ((m.map (fun c => if c = '\x0d' then '\n' else c)).filter
          (fun c => !(c = '\x00')))
      if normalized.isEmpty then []
      else
        let patternSegs :=
          (match regex1Search normalized with | some r => [r] | none => []) ++
          (match regex2Search normalized with | some r => [r] | none => []) ++
          (match regex3Search normalized with | some r => [r] | none => [])
        let segments := patternSegs ++ splitLinesJS normalized ++ splitCommaSemi normalized
        match extractLoop maxChars [] segments with
        | some r => r
        | none => shortenToLimit (sanitizeSegment normalized) maxChars

/-! ### getNewName.js : metadata hints, fallback date, Finder tags -/

/-- `true` for a truthy JS string field: present and nonempty. -/
def truthyS (o : Option JStr) : Bool :=
  match o with
  | some s => !s.isEmpty
  | none => false

/-- FileMetadata as consumed by getNewName.js.  `size` is `none` for an
absent or non-finite byte count.  `createdAt`/`modifiedAt` are modelled by
their `formatDateForPrompt` projection (the `YYYY-MM-DD` slice of the
parsed timestamp): JS `Date` parsing is platform behaviour outside the
core, so a field is `some d` when the timestamp parses to the formatted
date `d` and `none` when it is null or unparseable. -/
structure FileMetadata where
  size : Option Int
  sizeLabel : Option JStr
  createdAt : Option JStr
  modifiedAt : Option JStr
  tags : Option (List JStr)
  deriving DecidableEq, Repr

/-- `formatDateForPrompt` under the timestamp modelling above. -/
def formatDateForPrompt (v : Option JStr) : Option JStr := v

/-- The `{ type, value }` fallback-date record of `buildMetadataHint`. -/
structure FallbackDate where
  ftype : JStr
  value : JStr
  deriving DecidableEq, Repr

/-- `buildMetadataHint` of getNewName.js: the hint lines and the fallback
date. -/
def buildMetadataHint (fileMetadata : Option FileMetadata) (metadataHints : Bool) :
    List JStr × Option FallbackDate :=
  match metadataHints, fileMetadata with
  | false, _ => ([], none)
  | true, none => ([], none)
  | true, some md =>
    let created := formatDateForPrompt md.createdAt
    let modified := formatDateForPrompt md.modifiedAt
    let l1 := match created with
      | some c => [("Created on ".toList ++ c)]
      | none => []
    let l2 := match modified with
      | some m => [("Last modified on ".toList ++ m)]
      | none => []
    let l3 :=
      if truthyS md.sizeLabel then
        [("Approximate size ".toList ++ md.sizeLabel.getD [])]
      else
        match md.size with
        | some n => [("File size ".toList ++ (toString n).toList ++ " bytes".toList)]
        | none => []
    let l4 := match md.tags with
      | some ts =>
        if ts.length > 0 then
          [("Finder tags: ".toList ++ List.intercalate ", ".toList ts)]
        else []
      | none => []
    let fallbackDate := match created with
      | some c => some ⟨"created".toList, c⟩
      | none =>
        match modified with
        | some m => some ⟨"modified".toList, m⟩
        | none => none
    (l1 ++ l2 ++ l3 ++ l4, fallbackDate)

/-- The `/(19|20)\d{2}/` year test of `appendFallbackDate`. -/
def hasYearToken : JStr → Bool
  | a :: b :: c :: d :: rest =>
    (((a = '1' && b = '9') || (a = '2' && b = '0')) && c.isDigit && d.isDigit)
      || hasYearToken (b :: c :: d :: rest)
  | _ => false

/-- `appendFallbackDate` of getNewName.js: text plus the `applied` flag. -/
def appendFallbackDate (base : JStr) (fallbackDate : Option FallbackDate)
    (limit : Nat) : JStr × Bool :=
  if base.isEmpty then (base, false)
  else
    match fallbackDate with
    | none => (base, false)
    | some fd =>
      if fd.value.isEmpty then (base, false)
      else if hasYearToken base then (base, false)
      else
        let trimmedBase := trimJS base
        let dateFragment := fd.value
        let separator : JStr := if trimmedBase.isEmpty then [] else [' ']
        let appended := trimmedBase ++ separator ++ dateFragment
        if limit = 0 || appended.length ≤ limit then (appended, true)
        else
          let maxBaseLength := limit - dateFragment.length - separator.length
          let shortenedBase :=
            if maxBaseLength > 0 then shortenToLimit trimmedBase maxBaseLength else []
          let safeSeparator : JStr := if shortenedBase.isEmpty then [] else [' ']
          (shortenedBase ++ safeSeparator ++ dateFragment, true)

/-- The sanitize-and-deduplicate fold over Finder tags inside
`appendFinderTags`. -/
def tagStep (st : List JStr × List JStr) (tag : JStr) : List JStr × List JStr :=
  let cleaned := sanitizeSegment tag
  if cleaned.isEmpty then st
  else
    let key := lowerJS cleaned
    if key ∈ st.1 then st else (key :: st.1, st.2 ++ [cleaned])

/-- `appendFinderTags` of getNewName.js: text plus the applied tags. -/
def appendFinderTags (base : JStr) (tags : List JStr) : JStr × List JStr :=
  if tags.isEmpty then (base, [])
  else
    let sanitized := (tags.foldl tagStep ([], [])).2
    if sanitized.isEmpty then (base, [])
    else
      let trimmedBase := trimJS base
      let tagsSegment := List.intercalate " - ".toList sanitized
      let combined :=
        if trimmedBase.isEmpty then tagsSegment
        else trimmedBase ++ " - ".toList ++ tagsSegment
      (combined, sanitized)

/-- `getFocusGuidance` of getNewName.js. -/
def getFocusGuidance (focus : JStr) : JStr :=
  if focus = "company".toList then
    "Lead with the company or organization responsible for the document before other elements.".toList
  else if focus = "people".toList then
    "Lead with the key people, teams, or committees mentioned before any other elements.".toList
  else if focus = "project".toList then
    "Lead with the project, initiative, or deliverable name before the other elements.".toList
  else
    "Lead with the most relevant entity (company, project, team, or person) that anchors the document.".toList

/-- The slice of a pitch-deck detection record read by the prompt composer
(`summary`, `companyCandidates`, `fundingMentions`, `sampleTitle`); the
option bag passes it through untyped, so it is modelled as its own
structure. -/
structure PitchInfo where
  summary : Option JStr
  companyCandidates : List JStr
  fundingMentions : List JStr
  sampleTitle : Option JStr
  deriving DecidableEq, Repr

/-! ### getNewName.js : prompt composition and budgeting -/

/-- The option-bag fields getNewName.js destructures and reads.  `chars`
is `Option ℚ` (`none` = non-finite); the two prompt ceilings are integer
configuration values (`none` = absent/non-finite). -/
structure NameOptions where
  _case : JStr
  chars : Option ℚ
  content : Option JStr
  language : JStr
  videoPrompt : Option JStr
  customPrompt : Option JStr
  originalFileName : Option JStr
  fileMetadata : Option FileMetadata
  metadataHints : Bool := true
  useFilenameHint : Bool := true
  appendTags : Bool := false
  macTags : List JStr := []
  promptFocus : JStr := "balanced".toList
  pitchDeckMode : Bool := false
  pitchDeckDetection : Option PitchInfo := none
  images : List JStr := []
  maxPromptContentChars : Option Int := none
  maxPromptChars : Option Int := none

/-- `composePromptLines` of getNewName.js.  `showNum` models JS
number-to-string interpolation for the `chars` option (its output never
influences a verified property). -/
def composePromptLines (opts : NameOptions) (showNum : Option ℚ → JStr)
    (metadataHintLines : List JStr) (metadataFallback : Option FallbackDate)
    (contentSnippet : Option JStr) (contentOriginalLength : Nat)
    (contentTruncated : Bool) : List JStr :=
  let intro : List JStr :=
    if opts.pitchDeckMode then
      ["You rename startup fundraising pitch decks. Your response must either be a structured filename or the single word SKIP.".toList,
       "If the document is not a startup pitch deck, respond with SKIP (uppercase) and no additional text.".toList,
       "When it is a pitch deck, output a filename following this structure: Startup - [Company or team] - [Funding round or investor focus] - Pitch Deck - [Version or iteration] - [Best available date in YYYY-MM-DD].".toList,
       "Use only information that is clearly supported by the content or metadata. Prefer concise funding descriptors (Seed, Series A, Bridge, etc.) and realistic version labels (v1, Draft, Update).".toList,
       "If a segment is unknown, use a brief factual placeholder such as Unknown or Draft rather than inventing details.".toList,
       getFocusGuidance opts.promptFocus]
    else
      ["You rename documents using descriptive structured filenames.".toList,
       "Follow this order: [Primary subject] - [Purpose or title] - [Document type] - [Version identifier] - [Best available date in YYYY-MM-DD].".toList,
       getFocusGuidance opts.promptFocus,
       "Use real wording from the document or metadata and omit any segment that is not clearly supported.".toList,
       "Include authentic revision numbers or version labels (e.g., v1, draft, executed) when they appear.".toList,
       "Prefer ISO-style dates (YYYY-MM-DD). If only month or year is known, use the most precise available format.".toList,
       "Do not invent information, do not include the file extension, and avoid extra punctuation beyond hyphens or spaces.".toList]
  let directives : List JStr :=
    [[],
     ("Case style: ".toList ++ opts._case),
     ("Maximum characters: ".toList ++ showNum opts.chars),
     ("Language: ".toList ++ opts.language),
     "Return only the filename text.".toList,
     []]
  let hintLines : List JStr :=
    if opts.useFilenameHint && truthyS opts.originalFileName then
      [[], ("Current filename for context: ".toList ++ opts.originalFileName.getD [])]
    else []
  let metaLines : List JStr :=
    if metadataHintLines.length > 0 then
      [[], "File metadata hints:".toList] ++
      metadataHintLines.map (fun line => "- ".toList ++ line) ++
      (match metadataFallback with
       | some fd =>
         [("If the content lacks a clear date, fall back to the ".toList ++ fd.ftype
            ++ " date above.".toList)]
       | none => [])
    else []
  let pitchLines : List JStr :=
    match opts.pitchDeckMode, opts.pitchDeckDetection with
    | true, some det =>
      (if truthyS det.summary then
        [[], ("Pitch deck heuristics: ".toList ++ det.summary.getD [])]
       else []) ++
      (if det.companyCandidates.length > 0 then
        [[], "Potential company names:".toList] ++
        (det.companyCandidates.take 5).map (fun name => "- ".toList ++ name)
       else []) ++
      (if det.fundingMentions.length > 0 then
        [[], "Funding round references detected:".toList] ++
        (det.fundingMentions.take 5).map (fun term => "- ".toList ++ term)
       else []) ++
      (if truthyS det.sampleTitle then
        [[], ("Representative slide or heading: ".toList ++ det.sampleTitle.getD [])]
       else [])
    | _, _ => []
  let videoLines : List JStr :=
    match opts.videoPrompt with
    | some v => if v.isEmpty then [] else [[], "Video summary:".toList, v]
    | none => []
  let contentLines : List JStr :=
    match contentSnippet with
    | some snippet =>
      if snippet.isEmpty then []
      else if contentTruncated then
        [[], ("Content preview (first ".toList ++ (toString snippet.length).toList
          ++ " of ".toList ++ (toString contentOriginalLength).toList
          ++ " characters):".toList), snippet]
      else [[], "Content:".toList, snippet]
    | none => []
  let customLines : List JStr :=
    match opts.customPrompt with
    | some c => if c.isEmpty then [] else [[], "Custom instructions:".toList, c]
    | none => []
  intro ++ directives ++ hintLines ++ metaLines ++ pitchLines ++ videoLines
    ++ contentLines ++ customLines

/-- `DEFAULT_MAX_CONTENT_CHARS`. -/
def DEFAULT_MAX_CONTENT_CHARS : Nat := 8000

/-- `DEFAULT_MAX_PROMPT_CHARS`. -/
def DEFAULT_MAX_PROMPT_CHARS : Nat := 12000

/-- `maxContentChars` of getNewName.js line 376. -/
def maxContentCharsOf (opts : NameOptions) : Nat :=
  match opts.maxPromptContentChars with
  | some v => (max v 0).toNat
  | none => DEFAULT_MAX_CONTENT_CHARS

/-- `maxPromptChars` of getNewName.js line 379. -/
def maxPromptCharsOf (opts : NameOptions) : Nat :=
  match opts.maxPromptChars with
  | some v => (max v 2000).toNat
  | none => DEFAULT_MAX_PROMPT_CHARS

/-- The pre-shrink of the content snippet to the content ceiling
(getNewName.js lines 383-391): snippet and truncation flag. -/
def budgetStage1 (s0 : JStr) (mcc : Nat) : JStr × Bool :=
  if (!s0.isEmpty) && decide (s0.length > mcc) then (softTruncate s0 mcc, true)
  else (s0, false)

/-- `targetLength = Math.max(0, contentSnippet.length - overflow - 200)`
(natural subtraction clamps at 0). -/
def reShrinkTarget (s1 : JStr) (overflow : Nat) : Nat := s1.length - overflow - 200

/-- `targetLength > 0 ? softTruncate(contentSnippet, targetLength) : ''`. -/
def reShrink (s1 : JStr) (overflow : Nat) : JStr :=
  if reShrinkTarget s1 overflow > 0 then softTruncate s1 (reShrinkTarget s1 overflow)
  else []

/-- The overflow re-shrink (getNewName.js lines 417-427): snippet, flag and
reassembled prompt. -/
def budgetStage2 (assemble : JStr → Bool → JStr) (mpc : Nat) (st : JStr × Bool) :
    JStr × Bool × JStr :=
  if (assemble st.1 st.2).length > mpc ∧ st.1 ≠ [] then
    if reShrink st.1 ((assemble st.1 st.2).length - mpc) ≠ st.1 then
      (reShrink st.1 ((assemble st.1 st.2).length - mpc), true,
       assemble (reShrink st.1 ((assemble st.1 st.2).length - mpc)) true)
    else (st.1, st.2, assemble st.1 st.2)
  else (st.1, st.2, assemble st.1 st.2)

/-- The final hard truncation of the prompt (getNewName.js lines 429-432):
prompt and `promptTrimmed` flag. -/
def budgetStage3 (mpc : Nat) (p : JStr) : JStr × Bool :=
  if p.length > mpc then (p.take mpc, true) else (p, false)

/-- The prompt-budgeting state computed by getNewName.js lines 375-432. -/
structure BudgetState where
  prompt : JStr
  contentSnippet : JStr
  contentTruncated : Bool
  promptTrimmed : Bool
  maxContentChars : Nat
  maxPromptChars : Nat
  contentOriginalLength : Nat
  metadataLines : List JStr
  metadataFallback : Option FallbackDate

/-- The prompt assembly closure (`assemblePrompt` joined with newlines),
as a function of the current snippet and truncation flag. -/
def assembleWith (opts : NameOptions) (showNum : Option ℚ → JStr)
    (mi : List JStr × Option FallbackDate) (contentOriginalLength : Nat)
    (snippet : JStr) (trunc : Bool) : JStr :=
  List.intercalate ['\n']
    (composePromptLines opts showNum mi.1 mi.2
      (if snippet.isEmpty then none else some snippet) contentOriginalLength trunc)

/-- The budgeting portion of getNewName.js `module.exports`
(lines 375-432). -/
def promptBudget (opts : NameOptions) (showNum : Option ℚ → JStr) : BudgetState :=
  let s0 := opts.content.getD []
  let contentOriginalLength := s0.length
  let mcc := maxContentCharsOf opts
  let mpc := maxPromptCharsOf opts
  let mi := buildMetadataHint opts.fileMetadata opts.metadataHints
  let st1 := budgetStage1 s0 mcc
  let st2 := budgetStage2 (assembleWith opts showNum mi contentOriginalLength) mpc st1
  let st3 := budgetStage3 mpc st2.2.2
  { prompt := st3.1
    contentSnippet := st2.1
    contentTruncated := st2.2.1
    promptTrimmed := st3.2
    maxContentChars := mcc
    maxPromptChars := mpc
    contentOriginalLength := contentOriginalLength
    metadataLines := mi.1
    metadataFallback := mi.2 }

/-- `safeCharLimit` of getNewName.js line 436 (`Math.floor(chars)` for a
finite positive `chars`, else 20). -/
def safeCharLimitOf (chars : Option ℚ) : Nat :=
  match chars with
  | some q => if 0 < q then (⌊q⌋).toNat else 20
  | none => 20

/-- `candidateLimit` of getNewName.js lines 496-500 (`safeCharLimit` is a
natural number, so the JS guard `!Number.isFinite(..) || .. <= 0` is
`= 0`; `Math.floor(0.25 * n)` is `n / 4`). -/
def candidateLimitOf (chars : Option ℚ) : Nat :=
  let s := safeCharLimitOf chars
  if s = 0 then 120 else s + max 20 (s / 4)

/-- A JS `\w` word character (for the `\b` boundary of `/^skip\b/i`). -/
def isJsWordChar (c : Char) : Bool := c.isAlpha || c.isDigit || c = '_'

/-- The `/^skip\b/i` test of the skip guard. -/
def startsWithSkipToken (s : JStr) : Bool :=
  startsWithCI "skip".toList s &&
    (match (s.drop 4).head? with
     | none => true
     | some c => !isJsWordChar c)

/-- The normalized reply the skip guard inspects
(`normalizedReply.replace(/\s+/g, ' ').trim()` where `normalizedReply` is
the trimmed reply, or `''` for a non-string reply). -/
def skipCheckOf (modelResult : Option JStr) : JStr :=
  collapseTrimWs (trimJS (modelResult.getD []))

/-- The NameContext audit record of getNewName.js (both the skip context of
lines 456-491 and the normal context of lines 623-660; the assembled
`summary` prose, which no claim mentions, is omitted). -/
structure NameContext where
  candidate : Option JStr
  usedFallback : Bool
  caseStyle : JStr
  charLimit : Nat
  truncated : Bool
  finalName : Option JStr
  source : JStr
  modelResponse : Option JStr
  modelResponsePreview : Option JStr
  customPromptIncluded : Bool
  videoSummaryIncluded : Bool
  contentLength : Nat
  contentSnippetLength : Nat
  contentTruncated : Bool
  promptLength : Nat
  promptPreview : JStr
  promptTrimmed : Bool
  maxPromptChars : Nat
  maxContentChars : Nat
  filenameHintIncluded : Bool
  metadataHintIncluded : Bool
  metadataFallback : Option FallbackDate
  metadataFallbackApplied : Bool
  metadataFallbackValue : Option JStr
  originalFileName : Option JStr
  metadataSummary : List JStr
  appendTagsEnabled : Bool
  finderTagsDetected : List JStr
  finderTagsApplied : List JStr
  promptFocus : JStr
  pitchDeckMode : Bool
  pitchDeckDetection : Option PitchInfo
  pitchDeckSkip : Bool
  deriving DecidableEq, Repr

/-- The value resolved by getNewName.js: `filename` (null for a pitch-deck
skip), the `skipped` marker (absent, hence false, on the normal path) and
the context.  The function itself returns `none` for the `return null` path
(no usable filename even after the fallback phrase). -/
structure GNResult where
  filename : Option JStr
  skipped : Bool
  context : NameContext
  deriving DecidableEq, Repr

/-- The context fields shared by the skip context (getNewName.js lines
456-491) and the normal context (lines 623-660); each branch overrides its
own fields. -/
def sharedContextOf (opts : NameOptions) (modelResult : Option JStr)
    (showNum : Option ℚ → JStr) : NameContext :=
  let b := promptBudget opts showNum
  { candidate := none
    usedFallback := false
    caseStyle := opts._case
    charLimit := safeCharLimitOf opts.chars
    truncated := false
    finalName := none
    source :=
      if truthyS opts.content then "text".toList
      else if opts.images.length > 0 then "visual".toList
      else "prompt-only".toList
    modelResponse := modelResult
    modelResponsePreview :=
      if truthyS modelResult then some ((modelResult.getD []).take 280) else none
    customPromptIncluded := truthyS opts.customPrompt
    videoSummaryIncluded := truthyS opts.videoPrompt
    contentLength := (opts.content.getD []).length
    contentSnippetLength := b.contentSnippet.length
    contentTruncated := b.contentTruncated
    promptLength := b.prompt.length
    promptPreview := b.prompt.take 500
    promptTrimmed := b.promptTrimmed
    maxPromptChars := b.maxPromptChars
    maxContentChars := b.maxContentChars
    filenameHintIncluded := opts.useFilenameHint && truthyS opts.originalFileName
    metadataHintIncluded := opts.metadataHints && opts.fileMetadata.isSome
    metadataFallback := b.metadataFallback
    metadataFallbackApplied := false
    metadataFallbackValue := none
    originalFileName := opts.originalFileName
    metadataSummary := b.metadataLines
    appendTagsEnabled := opts.appendTags
    finderTagsDetected := opts.macTags
    finderTagsApplied := []
    promptFocus := opts.promptFocus
    pitchDeckMode := opts.pitchDeckMode
    pitchDeckDetection := opts.pitchDeckDetection
    pitchDeckSkip := false }

/-- The deliberate-skip result of the pitch-deck guard (getNewName.js
lines 439-494). -/
def skipResultOf (opts : NameOptions) (modelResult : Option JStr)
    (showNum : Option ℚ → JStr) : GNResult :=
  { filename := none
    skipped := true
    context :=
      { sharedContextOf opts modelResult showNum with
          pitchDeckMode := true
          pitchDeckSkip := true } }

/-- The candidate after Finder-tag and fallback-date post-processing
(getNewName.js lines 496-517): the final `candidate`, the
`metadataFallbackApplied` flag and the applied Finder tags.  The fallback
date it consumes is the one the budgeter computed
(`metadataInfo.fallbackDate = buildMetadataHint(..).fallbackDate`). -/
def candidateAfterDates (opts : NameOptions) (modelResult : Option JStr) :
    JStr × Bool × List JStr :=
  let candidateLimit := candidateLimitOf opts.chars
  let extractedCandidate := extractFilenameCandidate modelResult candidateLimit
  let c0 := if extractedCandidate.isEmpty then "renamed file".toList else extractedCandidate
  let tagResult :=
    if opts.appendTags && decide (opts.macTags.length > 0) then
      appendFinderTags c0 opts.macTags
    else (c0, [])
  let fbResult := appendFallbackDate tagResult.1
    (buildMetadataHint opts.fileMetadata opts.metadataHints).2 candidateLimit
  (fbResult.1, fbResult.2, tagResult.2)

/-- Case conversion, length enforcement and the `renamed file` fallback
(getNewName.js lines 519-543): the final filename with its `usedFallback`
and `truncated` flags, or `none` for the `return null` path. -/
def finalTripleOf (opts : NameOptions) (modelResult : Option JStr)
    (caseFn : JStr → JStr) : Option (JStr × Bool × Bool) :=
  let safeCharLimit := safeCharLimitOf opts.chars
  let extractedCandidate :=
    extractFilenameCandidate modelResult (candidateLimitOf opts.chars)
  let afterCase := caseFn (candidateAfterDates opts modelResult).1
  let filename1 := enforceLengthLimit afterCase safeCharLimit
  if filename1.isEmpty then
    let fallbackName := caseFn "renamed file".toList
    let enforcedFallback := enforceLengthLimit fallbackName safeCharLimit
    if enforcedFallback.isEmpty then none
    else some (enforcedFallback, true,
      decide (enforcedFallback.length < fallbackName.length))
  else
    some (filename1, extractedCandidate.isEmpty,
      (!afterCase.isEmpty) && (!filename1.isEmpty) && afterCase ≠ filename1)

/-- The candidate pipeline of getNewName.js lines 496-662 (everything after
the skip guard). -/
def normalResultOf (opts : NameOptions) (modelResult : Option JStr)
    (caseFn : JStr → JStr) (showNum : Option ℚ → JStr) : Option GNResult :=
  match finalTripleOf opts modelResult caseFn with
  | none => none
  | some ft =>
    some { filename := some ft.1
           skipped := false
           context :=
             { sharedContextOf opts modelResult showNum with
                 candidate := some (candidateAfterDates opts modelResult).1
                 usedFallback := ft.2.1
                 truncated := ft.2.2
                 finalName := some ft.1
                 metadataFallbackApplied := (candidateAfterDates opts modelResult).2.1
                 metadataFallbackValue :=
                   match (buildMetadataHint opts.fileMetadata opts.metadataHints).2 with
                   | some fd =>
                     if (candidateAfterDates opts modelResult).2.1 then some fd.value
                     else none
                   | none => none
                 finderTagsApplied := (candidateAfterDates opts modelResult).2.2 } }

/-- getNewName.js `module.exports`, as a function of the option bag, the
raw model reply (the external model call's result) and the external
case-transform collaborator `caseFn`; `showNum` models JS number printing
in the prompt text. -/
def getNewName (opts : NameOptions) (modelResult : Option JStr)
    (caseFn : JStr → JStr) (showNum : Option ℚ → JStr) : Option GNResult :=
  if opts.pitchDeckMode &&
      ((skipCheckOf modelResult).isEmpty || startsWithSkipToken (skipCheckOf modelResult)) then
    some (skipResultOf opts modelResult showNum)
  else normalResultOf opts modelResult caseFn showNum

/-! ### processFile.js : revert commands and the caller's rename guard -/

/-- `quoteForShell` of processFile.js: wrap in double quotes, backslash-
escaping the characters of the `/(["\\`$])/g` class (double quote,
backslash, backtick, dollar sign). -/
def quoteForShell (value : JStr) : JStr :=
  '"' :: (value.flatMap fun c =>
    if c = '"' || c = '\\' || c = Char.ofNat 96 || c = '$' then ['\\', c]
    else [c]) ++ ['"']

/-- Specification-side form: double-quoted with an explicit escape set;
every character outside the set appears unchanged. -/
def shellQuotedWith (escaped : List Char) (value : JStr) : JStr :=
  '"' :: (value.flatMap fun c => if c ∈ escaped then ['\\', c] else [c]) ++ ['"']

/-- The revert commands of processFile.js lines 254-255:
`mv <quoted new> <quoted original>` (used for both the absolute and the
relative pair). -/
def revertCommandFor (newPath origPath : JStr) : JStr :=
  "mv ".toList ++ quoteForShell newPath ++ [' '] ++ quoteForShell origPath

/-- The caller's guard at processFile.js line 216: a filesystem rename is
attempted only when name synthesis returned a result carrying a
filename. -/
def proceedsToRename (r : Option GNResult) : Bool :=
  match r with
  | none => false
  | some x => x.filename.isSome

/-- Concrete option bag for the C4 witness (pitch-deck mode on). -/
def demoPitchOptions : NameOptions :=
  { _case := "kebab-case".toList
    chars := some 30
    content := some "Problem Solution Market Team".toList
    language := "English".toList
    videoPrompt := none
    customPrompt := none
    originalFileName := some "deck.pdf".toList
    fileMetadata := none
    pitchDeckMode := true }

/-- Concrete option bag for the C2 witness: the content exceeds the content
ceiling, so the snippet is pre-shrunk. -/
def demoBudgetOptions : NameOptions :=
  { _case := "kebab-case".toList
    chars := some 30
    content := some "alpha beta. gamma delta epsilon".toList
    language := "English".toList
    videoPrompt := none
    customPrompt := none
    originalFileName := none
    fileMetadata := none
    maxPromptContentChars := some 10
    maxPromptChars := some 2000 }

/-- Number-printing stub for the witnesses. -/
def demoShowNum : Option ℚ → JStr := fun _ => "30".toList

/-! ### Claim theorems and supporting lemmas -/

/-- C1: for every input text and scan limit, the classifier's verdict is
true iff its returned score is at least 3.5, or the strong-keyword match
list is non-empty, or the section-keyword match list has at least 4
entries (the score being the one the classifier itself computes). -/
theorem claim_C1 (text : Option JStr) (maxChars : Nat) :
    (detectPitchDeck text maxChars).isPitchDeck = true ↔
      ((detectPitchDeck text maxChars).confidenceScore ≥ 7/2 ∨
       (detectPitchDeck text maxChars).matchedKeywords ≠ [] ∨
       4 ≤ (detectPitchDeck text maxChars).sectionMentions.length) := by
  cases text with
  | none =>
    simp [detectPitchDeck, degenerateResult]
  | some t =>
    cases ht : t.isEmpty with
    | true =>
      simp [detectPitchDeck, ht, degenerateResult]
    | false =>
      simp only [detectPitchDeck, ht, Bool.false_eq_true, if_false,
        Bool.or_eq_true, decide_eq_true_eq, ne_eq, ge_iff_le]
      constructor
      · rintro ((hs | hk) | hm)
        · exact Or.inl hs
        · exact Or.inr (Or.inl (by
            intro hnil
            rw [hnil] at hk
            exact Nat.lt_irrefl 0 hk))
        · exact Or.inr (Or.inr hm)
      · rintro (hs | hk | hm)
        · exact Or.inl (Or.inl hs)
        · exact Or.inl (Or.inr (List.length_pos.mpr hk))
        · exact Or.inr hm

theorem foldl_considerStep_snd (vals : List JStr) : ∀ (seen cands : List JStr),
    (vals.foldl considerStep (seen, cands)).2 = cands ++ dedupGo seen (considerPrep vals) := by
  induction vals with
  | nil => intro seen cands; simp [considerPrep, dedupGo]
  | cons v vs ih =>
    intro seen cands
    by_cases h0 : (trimJS v).isEmpty
    · have h3 : ¬ (3 ≤ (trimJS v).length) := by
        rw [List.isEmpty_iff] at h0
        simp [h0]
      simp [considerStep, h0, h3, considerPrep, ih, List.filter_cons]
    · by_cases h2 : (trimJS v).length < 3
      · have h3 : ¬ (3 ≤ (trimJS v).length) := by omega
        simp [considerStep, h0, h2, h3, considerPrep, ih, List.filter_cons]
      · have h3 : 3 ≤ (trimJS v).length := by omega
        by_cases hseen : lowerJS (trimJS v) ∈ seen
        · simp [considerStep, h0, h2, h3, hseen, considerPrep, dedupGo, ih,
            List.filter_cons]
        · simp [considerStep, h0, h2, h3, hseen, considerPrep, dedupGo, ih,
            List.filter_cons]

theorem foldl_considerStep_fst (vals : List JStr) : ∀ (seen cands : List JStr),
    (vals.foldl considerStep (seen, cands)).2 = cands →
    (vals.foldl considerStep (seen, cands)).1 = seen := by
  induction vals with
  | nil => intro seen cands _; rfl
  | cons v vs ih =>
    intro seen cands h
    by_cases h0 : (trimJS v).isEmpty
    · rw [List.foldl_cons] at h ⊢
      have hstep : considerStep (seen, cands) v = (seen, cands) := by
        simp [considerStep, h0]
      rw [hstep] at h ⊢
      exact ih seen cands h
    · by_cases h2 : (trimJS v).length < 3
      · rw [List.foldl_cons] at h ⊢
        have hstep : considerStep (seen, cands) v = (seen, cands) := by
          simp [considerStep, h0, h2]
        rw [hstep] at h ⊢
        exact ih seen cands h
      · by_cases hseen : lowerJS (trimJS v) ∈ seen
        · rw [List.foldl_cons] at h ⊢
          have hstep : considerStep (seen, cands) v = (seen, cands) := by
            simp [considerStep, h0, h2, hseen]
          rw [hstep] at h ⊢
          exact ih seen cands h
        · exfalso
          rw [List.foldl_cons] at h
          have hstep : considerStep (seen, cands) v =
              (lowerJS (trimJS v) :: seen, cands ++ [trimJS v]) := by
            simp [considerStep, h0, h2, hseen]
          rw [hstep, foldl_considerStep_snd] at h
          have hlen := congrArg List.length h
          simp only [List.length_append, List.length_cons, List.length_nil] at hlen
          omega

theorem extractCompanyCandidates_eq (lines : List JStr) :
    extractCompanyCandidates lines =
      (if dedupCI (considerPrep (firstPassRaw lines)) = []
       then dedupCI (considerPrep (fallbackRaw lines))
       else dedupCI (considerPrep (firstPassRaw lines))) := by
  have hsnd := foldl_considerStep_snd (firstPassRaw lines) [] []
  rw [List.nil_append] at hsnd
  by_cases h : dedupCI (considerPrep (firstPassRaw lines)) = []
  · have h2 : ((firstPassRaw lines).foldl considerStep ([], [])).2 = [] := by
      rw [hsnd]
      exact h
    have h1 : ((firstPassRaw lines).foldl considerStep ([], [])).1 = [] :=
      foldl_considerStep_fst _ [] [] h2
    have hpair : (firstPassRaw lines).foldl considerStep ([], [])
        = (([] : List JStr), ([] : List JStr)) := by
      rw [Prod.ext_iff]
      exact ⟨h1, h2⟩
    unfold extractCompanyCandidates
    rw [hpair]
    simp only [List.isEmpty_nil, if_true, if_pos h]
    have := foldl_considerStep_snd (fallbackRaw lines) [] []
    rw [List.nil_append] at this
    exact this
  · have h2 : ¬ ((firstPassRaw lines).foldl considerStep ([], [])).2.isEmpty = true := by
      rw [List.isEmpty_iff, hsnd]
      exact h
    simp only [Bool.not_eq_true] at h2
    simp only [extractCompanyCandidates]
    rw [h2]
    simp only [Bool.false_eq_true, if_false, if_neg h]
    exact hsnd

/-- C9: company-name extraction applies the capitalized-words-plus-corporate-
suffix pattern (COMPANY_REGEX, compiled above) to every line; the fallback
pass over short mostly-uppercase lines (the guards of `fallbackRaw`) is
consulted only when the first pass yields zero candidates, and the result
is in both cases the trimmed, length-≥-3 raw candidates deduplicated
case-insensitively in first-seen order.  The classifier feeds it the first
40 non-empty trimmed lines of the scan-limited text. -/
theorem claim_C9 :
    (∀ lines : List JStr,
      extractCompanyCandidates lines =
        (if dedupCI (considerPrep (firstPassRaw lines)) = []
         then dedupCI (considerPrep (fallbackRaw lines))
         else dedupCI (considerPrep (firstPassRaw lines)))) ∧
    (∀ (c : Char) (t : JStr) (maxChars : Nat),
      (detectPitchDeck (some (c :: t)) maxChars).companyCandidates =
        extractCompanyCandidates ((nonemptyLines ((c :: t).take maxChars)).take 40)) :=
  ⟨extractCompanyCandidates_eq, fun _ _ _ => rfl⟩

/-- C10: for absent, null, or empty-string input text the classifier
returns the fixed degenerate result — verdict false, score 0, confidence
bucket "none", all four keyword match lists empty, empty company-candidate
list and null representative line — independently of the scan limit (and,
being a total function, without failing). -/
theorem claim_C10 (maxChars : Nat) :
    detectPitchDeck none maxChars =
      { isPitchDeck := false, confidenceScore := 0, confidence := "none",
        matchedKeywords := [], fundingMentions := [], investorMentions := [],
        sectionMentions := [], companyCandidates := [], sampleTitle := none } ∧
    detectPitchDeck (some []) maxChars =
      { isPitchDeck := false, confidenceScore := 0, confidence := "none",
        matchedKeywords := [], fundingMentions := [], investorMentions := [],
        sectionMentions := [], companyCandidates := [], sampleTitle := none } :=
  ⟨rfl, rfl⟩

theorem cleanChars_not_quote {c : Char} (h : cleanChars c = true) :
    isQuoteChar c = false := by
  cases hq : isQuoteChar c
  · rfl
  · exfalso
    simp only [isQuoteChar, Bool.or_eq_true, decide_eq_true_eq] at hq
    rcases hq with ((((((h1 | h1) | h1) | h1) | h1) | h1) | h1) <;> subst h1 <;>
      exact absurd h (by decide)

theorem cleanChars_filename {c : Char} (h : cleanChars c = true) :
    isFilenameChar c = true := by
  simp only [cleanChars, Bool.or_eq_true, decide_eq_true_eq] at h
  simp only [isFilenameChar, Bool.or_eq_true, decide_eq_true_eq]
  rcases h with (((h | h) | h) | h)
  · exact Or.inl (Or.inl (Or.inl (Or.inl h)))
  · exact Or.inl (Or.inl (Or.inl (Or.inr h)))
  · subst h; exact Or.inl (Or.inl (Or.inr (by decide)))
  · subst h; exact Or.inr rfl

theorem splitOnP_chunks {p : Char → Bool} :
    ∀ (s : JStr) (w : JStr), w ∈ s.splitOnP p → ∀ c ∈ w, c ∈ s ∧ p c = false := by
  intro s
  induction s with
  | nil =>
    intro w hw c hc
    rw [List.splitOnP_nil] at hw
    simp only [List.mem_singleton] at hw
    subst hw
    simp at hc
  | cons x xs ih =>
    intro w hw c hc
    rw [List.splitOnP_cons] at hw
    by_cases hx : p x
    · rw [if_pos hx] at hw
      rcases List.mem_cons.mp hw with h | h
      · subst h; simp at hc
      · have h2 := ih w h c hc
        exact ⟨List.mem_cons_of_mem _ h2.1, h2.2⟩
    · rw [if_neg hx] at hw
      obtain ⟨h0, t, hsplit⟩ := List.exists_cons_of_ne_nil (List.splitOnP_ne_nil p xs)
      rw [hsplit, List.modifyHead_cons] at hw
      rcases List.mem_cons.mp hw with h | h
      · subst h
        rcases List.mem_cons.mp hc with hc1 | hc1
        · subst hc1
          exact ⟨List.mem_cons_self _ _, by simpa using hx⟩
        · have h2 := ih h0 (by rw [hsplit]; exact List.mem_cons_self _ _) c hc1
          exact ⟨List.mem_cons_of_mem _ h2.1, h2.2⟩
      · have h2 := ih w (by rw [hsplit]; exact List.mem_cons_of_mem _ h) c hc
        exact ⟨List.mem_cons_of_mem _ h2.1, h2.2⟩

theorem splitWsJS_words {s : JStr} :
    ∀ w ∈ splitWsJS s, w ≠ [] ∧ ∀ c ∈ w, c ∈ s ∧ isWS c = false := by
  intro w hw
  unfold splitWsJS at hw
  have hne := List.of_mem_filter hw
  have hmem := List.mem_of_mem_filter hw
  refine ⟨?_, fun c hc => splitOnP_chunks s w hmem c hc⟩
  intro hnil
  subst hnil
  simp at hne

theorem joinSpace_singleton (w : JStr) : joinSpace [w] = w := by
  simp [joinSpace, List.intercalate]

theorem joinSpace_cons_cons (a b : JStr) (l : List JStr) :
    joinSpace (a :: b :: l) = a ++ ' ' :: joinSpace (b :: l) := by
  simp [joinSpace, List.intercalate, List.intersperse_cons_cons]

theorem joinSpace_ne_nil {a : JStr} (l : List JStr) (ha : a ≠ []) :
    joinSpace (a :: l) ≠ [] := by
  cases l with
  | nil => rw [joinSpace_singleton]; exact ha
  | cons b l2 =>
    rw [joinSpace_cons_cons]
    cases a with
    | nil => exact absurd rfl ha
    | cons x xs => simp

theorem joinSpace_mem {c : Char} :
    ∀ {ws : List JStr}, c ∈ joinSpace ws → (∃ w ∈ ws, c ∈ w) ∨ c = ' ' := by
  intro ws
  induction ws with
  | nil => intro h; simp [joinSpace, List.intercalate] at h
  | cons a tl ih =>
    intro h
    cases tl with
    | nil =>
      rw [joinSpace_singleton] at h
      exact Or.inl ⟨a, List.mem_cons_self _ _, h⟩
    | cons b l2 =>
      rw [joinSpace_cons_cons] at h
      rcases List.mem_append.mp h with h1 | h1
      · exact Or.inl ⟨a, List.mem_cons_self _ _, h1⟩
      · rcases List.mem_cons.mp h1 with h2 | h2
        · exact Or.inr h2
        · rcases ih h2 with ⟨w, hw, hcw⟩ | h3
          · exact Or.inl ⟨w, List.mem_cons_of_mem _ hw, hcw⟩
          · exact Or.inr h3

theorem splitWs_joinSpace {ws : List JStr}
    (h : ∀ w ∈ ws, w ≠ [] ∧ ∀ c ∈ w, isWS c = false) :
    splitWsJS (joinSpace ws) = ws := by
  induction ws with
  | nil => rfl
  | cons a tl ih =>
    have ha := h a (List.mem_cons_self _ _)
    cases tl with
    | nil =>
      rw [joinSpace_singleton]
      unfold splitWsJS
      rw [List.splitOnP_eq_single _ _ (fun x hx => by simp [(ha.2 x hx)])]
      simp [List.filter_cons, ha.1]
    | cons b l2 =>
      rw [joinSpace_cons_cons]
      unfold splitWsJS
      rw [List.splitOnP_first _ _ (fun x hx => by simp [(ha.2 x hx)]) ' '
        (by decide) _]
      have ih2 := ih (fun w hw => h w (List.mem_cons_of_mem _ hw))
      unfold splitWsJS at ih2
      rw [List.filter_cons]
      have hne : (!a.isEmpty) = true := by
        cases a with
        | nil => exact absurd rfl ha.1
        | cons _ _ => rfl
      rw [if_pos hne, ih2]

theorem collapse_idem (s : JStr) :
    collapseTrimWs (collapseTrimWs s) = collapseTrimWs s := by
  unfold collapseTrimWs
  rw [splitWs_joinSpace (fun w hw =>
    ⟨(splitWsJS_words w hw).1, fun c hc => ((splitWsJS_words w hw).2 c hc).2⟩)]

theorem collapse_preserves_clean {s : JStr} (h : s.all cleanChars = true) :
    (collapseTrimWs s).all cleanChars = true := by
  rw [List.all_eq_true] at h ⊢
  intro c hc
  unfold collapseTrimWs at hc
  rcases joinSpace_mem hc with ⟨w, hw, hcw⟩ | hsp
  · exact h c ((splitWsJS_words w hw).2 c hcw).1
  · subst hsp; decide

theorem map_filename_id {s : JStr} (h : ∀ c ∈ s, isFilenameChar c = true) :
    s.map (fun c => if isFilenameChar c then c else ' ') = s := by
  induction s with
  | nil => rfl
  | cons c cs ih =>
    simp only [List.map_cons, h c (List.mem_cons_self _ _), if_true]
    rw [ih (fun d hd => h d (List.mem_cons_of_mem _ hd))]

theorem sanitize_eq_collapse {s : JStr} (hclean : s.all cleanChars = true)
    (hlab : labelMatchLen s = none) : sanitizeSegment s = collapseTrimWs s := by
  by_cases hs : s.isEmpty
  · rw [List.isEmpty_iff.mp hs]; rfl
  · unfold sanitizeSegment
    rw [if_neg hs]
    have hq : s.filter (fun c => !isQuoteChar c) = s :=
      List.filter_eq_self.mpr (fun a ha => by
        rw [cleanChars_not_quote (List.all_eq_true.mp hclean a ha)]; rfl)
    have hl : stripLabel s = s := by unfold stripLabel; rw [hlab]
    show collapseTrimWs ((stripLabel (s.filter (fun c => !isQuoteChar c))).map
      (fun c => if isFilenameChar c then c else ' ')) = collapseTrimWs s
    rw [hq, hl, map_filename_id (fun c hc =>
      cleanChars_filename (List.all_eq_true.mp hclean c hc))]

/-- C8 fails as stated: a clean string beginning with a label word (here
`title`) is not returned unchanged — `LABEL_REGEX` strips the label — and a
clean string whose first sanitization still begins with a label word shows
sanitization is not idempotent. -/
theorem claim_C8_counterexample :
    ("title page".toList.all cleanChars = true ∧
     collapseTrimWs "title page".toList = "title page".toList ∧
     sanitizeSegment "title page".toList ≠ "title page".toList) ∧
    sanitizeSegment (sanitizeSegment "title title x".toList) ≠
      sanitizeSegment "title title x".toList := by
  refine ⟨⟨by decide, by decide, by decide⟩, by decide⟩

/-- C8 as amended: on strings of letters, digits, spaces, and hyphens that
the label-stripping regex matches neither directly nor after whitespace
collapsing, sanitization is exactly whitespace collapse plus trim, and is
idempotent. -/
theorem claim_C8 (s : JStr) (hclean : s.all cleanChars = true)
    (hlab1 : labelMatchLen s = none)
    (hlab2 : labelMatchLen (collapseTrimWs s) = none) :
    sanitizeSegment s = collapseTrimWs s ∧
    sanitizeSegment (sanitizeSegment s) = sanitizeSegment s := by
  have h1 : sanitizeSegment s = collapseTrimWs s := sanitize_eq_collapse hclean hlab1
  have h2 : sanitizeSegment (collapseTrimWs s) = collapseTrimWs (collapseTrimWs s) :=
    sanitize_eq_collapse (collapse_preserves_clean hclean) hlab2
  refine ⟨h1, ?_⟩
  rw [h1, h2, collapse_idem, ← h1]

/-- Witness instantiating C8 (amended) at a concrete clean, label-free
string. -/
theorem claim_C8_witness :
    ("Annual  Report 2023".toList.all cleanChars = true) ∧
    sanitizeSegment "Annual  Report 2023".toList
      = collapseTrimWs "Annual  Report 2023".toList ∧
    sanitizeSegment (sanitizeSegment "Annual  Report 2023".toList)
      = sanitizeSegment "Annual  Report 2023".toList := by
  refine ⟨by decide, ?_, ?_⟩
  · exact (claim_C8 "Annual  Report 2023".toList (by decide) (by decide) (by decide)).1
  · exact (claim_C8 "Annual  Report 2023".toList (by decide) (by decide) (by decide)).2

/-! ### C7 : word-boundary shortening -/

theorem joinSpace_append_singleton :
    ∀ (l : List JStr) (w : JStr), l ≠ [] →
      joinSpace (l ++ [w]) = joinSpace l ++ ' ' :: w := by
  intro l
  induction l with
  | nil => intro w h; exact absurd rfl h
  | cons a tl ih =>
    intro w _
    cases tl with
    | nil => rw [List.cons_append, List.nil_append, joinSpace_cons_cons,
        joinSpace_singleton, joinSpace_singleton]
    | cons b l2 =>
      rw [List.cons_append, List.cons_append, joinSpace_cons_cons, ← List.cons_append,
        ih w (by simp), joinSpace_cons_cons]
      simp [List.append_assoc]

theorem shortenGo_length {limit : Nat} : ∀ (rest : List JStr) (cand : JStr),
    cand.length ≤ limit → (shortenGo limit cand rest).length ≤ limit := by
  intro rest
  induction rest with
  | nil => intro cand h; exact h
  | cons w ws ih =>
    intro cand h
    have hunfold : shortenGo limit cand (w :: ws) =
        (if (if cand.isEmpty then w else cand ++ ' ' :: w).length > limit
         then cand
         else shortenGo limit (if cand.isEmpty then w else cand ++ ' ' :: w) ws) := rfl
    by_cases hn : (if cand.isEmpty then w else cand ++ ' ' :: w).length > limit
    · rw [hunfold, if_pos hn]; exact h
    · rw [hunfold, if_neg hn]; exact ih _ (Nat.le_of_not_lt hn)

theorem shortenGo_joins {limit : Nat} : ∀ (rest : List JStr) (ds : List JStr),
    (∀ w ∈ ds, w ≠ []) → (∀ w ∈ rest, w ≠ []) →
    ∃ k, shortenGo limit (joinSpace ds) rest = joinSpace (ds ++ rest.take k) := by
  intro rest
  induction rest with
  | nil => intro ds _ _; exact ⟨0, by simp [shortenGo]⟩
  | cons w ws ih =>
    intro ds hds hrest
    have hnext : (if (joinSpace ds).isEmpty then w else joinSpace ds ++ ' ' :: w)
        = joinSpace (ds ++ [w]) := by
      cases ds with
      | nil =>
        have hj : joinSpace ([] : List JStr) = [] := rfl
        rw [List.nil_append, hj, joinSpace_singleton]
        rfl
      | cons d ds2 =>
        have hne : (joinSpace (d :: ds2)).isEmpty = false := by
          have h2 := joinSpace_ne_nil ds2 (hds d (List.mem_cons_self _ _))
          cases hj : joinSpace (d :: ds2) with
          | nil => exact absurd hj h2
          | cons _ _ => rfl
        rw [hne]
        simp only [Bool.false_eq_true, if_false]
        rw [joinSpace_append_singleton (d :: ds2) w (by simp)]
    have hunfold : shortenGo limit (joinSpace ds) (w :: ws) =
        (if (if (joinSpace ds).isEmpty then w else joinSpace ds ++ ' ' :: w).length > limit
         then joinSpace ds
         else shortenGo limit
           (if (joinSpace ds).isEmpty then w else joinSpace ds ++ ' ' :: w) ws) := rfl
    rw [hunfold, hnext]
    split
    · exact ⟨0, by simp⟩
    · obtain ⟨k, hk⟩ := ih (ds ++ [w])
        (fun x hx => by
          rcases List.mem_append.mp hx with h1 | h1
          · exact hds x h1
          · rw [List.mem_singleton.mp h1]
            exact hrest w (List.mem_cons_self _ _))
        (fun x hx => hrest x (List.mem_cons_of_mem _ hx))
      refine ⟨k + 1, ?_⟩
      rw [hk, List.take_succ_cons, List.append_assoc, List.singleton_append]

/-- C7 fails as stated: a sanitized segment that is a single word longer
than the ceiling is hard-cut at the ceiling, in the middle of the word
(`candidate || text.slice(0, limit)` falls back to a character cut). -/
theorem claim_C7_counterexample :
    shortenToLimit (List.replicate 45 'a') 40 = List.replicate 40 'a' ∧
    ¬ ∃ k, shortenToLimit (List.replicate 45 'a') 40
        = joinSpace ((splitWsJS (List.replicate 45 'a')).take k) := by
  have h1 : shortenToLimit (List.replicate 45 'a') 40 = List.replicate 40 'a' := by
    decide
  have hsplit : splitWsJS (List.replicate 45 'a') = [List.replicate 45 'a'] := by
    decide
  refine ⟨h1, ?_⟩
  rintro ⟨k, hk⟩
  rw [h1, hsplit] at hk
  cases k with
  | zero =>
    rw [List.take_zero] at hk
    exact absurd hk (by decide)
  | succ k =>
    rw [List.take_succ_cons, List.take_nil, joinSpace_singleton] at hk
    have hlen := congrArg List.length hk
    simp only [List.length_replicate] at hlen
    omega

/-- C7 as amended: shortening a sanitized segment that exceeds the ceiling
cuts at a word boundary — the result is a whitespace-joined prefix of at
least one of the segment's words, within the ceiling — provided the first
word itself fits within the ceiling; when the first word alone exceeds the
ceiling the segment is hard-cut at the ceiling instead. -/
theorem claim_C7 (s : JStr) (limit : Nat) (hl : 0 < limit)
    (hlen : limit < (sanitizeSegment s).length) :
    (∀ w ws, splitWsJS (sanitizeSegment s) = w :: ws → w.length ≤ limit →
      ∃ k, 0 < k ∧
        shortenToLimit (sanitizeSegment s) limit
          = joinSpace ((splitWsJS (sanitizeSegment s)).take k) ∧
        (shortenToLimit (sanitizeSegment s) limit).length ≤ limit) ∧
    (∀ w ws, splitWsJS (sanitizeSegment s) = w :: ws → limit < w.length →
      shortenToLimit (sanitizeSegment s) limit = (sanitizeSegment s).take limit) := by
  have htne : (sanitizeSegment s).isEmpty = false := by
    cases h : (sanitizeSegment s).isEmpty
    · rfl
    · rw [List.isEmpty_iff.mp h] at hlen
      exact absurd hlen (Nat.not_lt_zero _)
  have hcond : (((sanitizeSegment s).isEmpty || decide (limit = 0))
      || decide ((sanitizeSegment s).length ≤ limit)) = false := by
    rw [htne]
    simp only [Bool.false_or, Bool.or_eq_false_iff, decide_eq_false_iff_not]
    exact ⟨by omega, by omega⟩
  have hmain : shortenToLimit (sanitizeSegment s) limit =
      (if (shortenGo limit [] (splitWsJS (sanitizeSegment s))).isEmpty
       then (sanitizeSegment s).take limit
       else shortenGo limit [] (splitWsJS (sanitizeSegment s))) := by
    unfold shortenToLimit
    rw [hcond]
    simp only [Bool.false_eq_true, if_false]
  constructor
  · intro w ws hsplit hfit
    rw [hsplit] at hmain
    have hw : w ≠ [] :=
      (splitWsJS_words w (by rw [hsplit]; exact List.mem_cons_self _ _)).1
    have hws : ∀ x ∈ ws, x ≠ [] := fun x hx =>
      (splitWsJS_words x (by rw [hsplit]; exact List.mem_cons_of_mem _ hx)).1
    have hstep : shortenGo limit [] (w :: ws) = shortenGo limit w ws := by
      have h0 : shortenGo limit [] (w :: ws) =
          (if w.length > limit then [] else shortenGo limit w ws) := rfl
      rw [h0, if_neg (by omega)]
    obtain ⟨k, hk⟩ := shortenGo_joins ws [w]
      (fun x hx => by rw [List.mem_singleton.mp hx]; exact hw) hws
    rw [joinSpace_singleton, List.singleton_append] at hk
    have hkne : joinSpace (w :: ws.take k) ≠ [] := joinSpace_ne_nil _ hw
    have hkemp : (joinSpace (w :: ws.take k)).isEmpty = false := by
      cases hj : joinSpace (w :: ws.take k) with
      | nil => exact absurd hj hkne
      | cons _ _ => rfl
    rw [hstep, hk, hkemp] at hmain
    simp only [Bool.false_eq_true, if_false] at hmain
    refine ⟨k + 1, Nat.succ_pos _, ?_, ?_⟩
    · rw [hmain, hsplit, List.take_succ_cons]
    · rw [hmain, ← hk]
      exact shortenGo_length ws w hfit
  · intro w ws hsplit hbig
    rw [hsplit] at hmain
    have hstep : shortenGo limit [] (w :: ws) = [] := by
      have h0 : shortenGo limit [] (w :: ws) =
          (if w.length > limit then [] else shortenGo limit w ws) := rfl
      rw [h0, if_pos (by omega)]
    rw [hstep] at hmain
    simpa using hmain

/-- Witness instantiating C7 (amended) at a concrete two-word segment with a
seven-character ceiling. -/
theorem claim_C7_witness :
    ∃ k, 0 < k ∧
      shortenToLimit (sanitizeSegment "alpha beta".toList) 7
        = joinSpace ((splitWsJS (sanitizeSegment "alpha beta".toList)).take k) ∧
      (shortenToLimit (sanitizeSegment "alpha beta".toList) 7).length ≤ 7 :=
  (claim_C7 "alpha beta".toList 7 (by decide) (by decide)).1
    "alpha".toList ["beta".toList] (by decide) (by decide)

theorem joinSep_singleton (sep : Char) (w : JStr) : joinSep sep [w] = w := by
  simp [joinSep, List.intercalate]

theorem joinSep_cons_cons (sep : Char) (a b : JStr) (l : List JStr) :
    joinSep sep (a :: b :: l) = a ++ sep :: joinSep sep (b :: l) := by
  simp [joinSep, List.intercalate, List.intersperse_cons_cons]

theorem joinSep_ne_nil (sep : Char) {a : JStr} (l : List JStr) (ha : a ≠ []) :
    joinSep sep (a :: l) ≠ [] := by
  cases l with
  | nil => rw [joinSep_singleton]; exact ha
  | cons b l2 =>
    rw [joinSep_cons_cons]
    cases a with
    | nil => exact absurd rfl ha
    | cons x xs => simp

theorem joinSep_append_singleton (sep : Char) :
    ∀ (l : List JStr) (w : JStr), l ≠ [] →
      joinSep sep (l ++ [w]) = joinSep sep l ++ sep :: w := by
  intro l
  induction l with
  | nil => intro w h; exact absurd rfl h
  | cons a tl ih =>
    intro w _
    cases tl with
    | nil => rw [List.cons_append, List.nil_append, joinSep_cons_cons,
        joinSep_singleton, joinSep_singleton]
    | cons b l2 =>
      rw [List.cons_append, List.cons_append, joinSep_cons_cons, ← List.cons_append,
        ih w (by simp), joinSep_cons_cons]
      simp [List.append_assoc]

theorem applyGo_length {sep : Char} {limit : Nat} :
    ∀ (parts : List JStr) (acc : JStr), acc.length ≤ limit →
      (applyGo sep limit parts acc).length ≤ limit := by
  intro parts
  induction parts with
  | nil => intro acc h; exact h
  | cons p rest ih =>
    intro acc h
    have h0 : applyGo sep limit (p :: rest) acc =
        (if p.isEmpty then applyGo sep limit rest acc
         else if (if acc.isEmpty then p else acc ++ sep :: p).length > limit then acc
         else applyGo sep limit rest (if acc.isEmpty then p else acc ++ sep :: p)) := rfl
    rw [h0]
    by_cases hp : p.isEmpty
    · rw [if_pos hp]; exact ih acc h
    · rw [if_neg hp]
      by_cases hn : (if acc.isEmpty then p else acc ++ sep :: p).length > limit
      · rw [if_pos hn]; exact h
      · rw [if_neg hn]; exact ih _ (Nat.le_of_not_lt hn)

theorem applyGo_ne_nil {sep : Char} {limit : Nat} :
    ∀ (parts : List JStr) (acc : JStr), acc ≠ [] →
      applyGo sep limit parts acc ≠ [] := by
  intro parts
  induction parts with
  | nil => intro acc h; exact h
  | cons p rest ih =>
    intro acc h
    have h0 : applyGo sep limit (p :: rest) acc =
        (if p.isEmpty then applyGo sep limit rest acc
         else if (if acc.isEmpty then p else acc ++ sep :: p).length > limit then acc
         else applyGo sep limit rest (if acc.isEmpty then p else acc ++ sep :: p)) := rfl
    rw [h0]
    by_cases hp : p.isEmpty
    · rw [if_pos hp]; exact ih acc h
    · rw [if_neg hp]
      by_cases hn : (if acc.isEmpty then p else acc ++ sep :: p).length > limit
      · rw [if_pos hn]; exact h
      · rw [if_neg hn]
        refine ih _ ?_
        have hacc : acc.isEmpty = false := by
          cases hj : acc with
          | nil => exact absurd hj h
          | cons _ _ => rfl
        rw [hacc]
        simp only [Bool.false_eq_true, if_false]
        intro habs
        exact absurd (List.append_eq_nil.mp habs).2 (by simp)

theorem applyGo_joins {sep : Char} {limit : Nat} :
    ∀ (parts : List JStr) (ds : List JStr), (∀ w ∈ ds, w ≠ []) →
      ∃ k, applyGo sep limit parts (joinSep sep ds)
        = joinSep sep (ds ++ (parts.filter (fun p => !p.isEmpty)).take k) := by
  intro parts
  induction parts with
  | nil => intro ds _; exact ⟨0, by simp [applyGo]⟩
  | cons p rest ih =>
    intro ds hds
    have h0 : applyGo sep limit (p :: rest) (joinSep sep ds) =
        (if p.isEmpty then applyGo sep limit rest (joinSep sep ds)
         else if (if (joinSep sep ds).isEmpty then p
                  else joinSep sep ds ++ sep :: p).length > limit then joinSep sep ds
         else applyGo sep limit rest
           (if (joinSep sep ds).isEmpty then p else joinSep sep ds ++ sep :: p)) := rfl
    by_cases hp : p.isEmpty
    · rw [h0, if_pos hp]
      obtain ⟨k, hk⟩ := ih ds hds
      refine ⟨k, ?_⟩
      rw [hk, List.filter_cons]
      simp [hp]
    · have hpe : p.isEmpty = false := by
        cases hb : p.isEmpty
        · rfl
        · exact absurd hb hp
      have hpne : p ≠ [] := by
        intro habs
        subst habs
        simp at hpe
      have hnext : (if (joinSep sep ds).isEmpty then p else joinSep sep ds ++ sep :: p)
          = joinSep sep (ds ++ [p]) := by
        cases ds with
        | nil =>
          have hj : joinSep sep ([] : List JStr) = [] := rfl
          rw [List.nil_append, hj, joinSep_singleton]
          rfl
        | cons d ds2 =>
          have hne2 : (joinSep sep (d :: ds2)).isEmpty = false := by
            have h2 := joinSep_ne_nil sep ds2 (hds d (List.mem_cons_self _ _))
            cases hj : joinSep sep (d :: ds2) with
            | nil => exact absurd hj h2
            | cons _ _ => rfl
          rw [hne2]
          simp only [Bool.false_eq_true, if_false]
          rw [joinSep_append_singleton sep (d :: ds2) p (by simp)]
      rw [h0, if_neg hp]
      by_cases hn : (if (joinSep sep ds).isEmpty then p
          else joinSep sep ds ++ sep :: p).length > limit
      · rw [if_pos hn]
        exact ⟨0, by simp⟩
      · rw [if_neg hn, hnext]
        obtain ⟨k, hk⟩ := ih (ds ++ [p]) (fun x hx => by
          rcases List.mem_append.mp hx with h1 | h1
          · exact hds x h1
          · rw [List.mem_singleton.mp h1]; exact hpne)
        refine ⟨k + 1, ?_⟩
        rw [hk, List.filter_cons]
        simp [hpe, List.take_succ_cons, List.append_assoc]

theorem splitOnCharJS_ne_nil (sep : Char) : ∀ text, splitOnCharJS sep text ≠ [] := by
  intro text
  cases text with
  | nil => simp [splitOnCharJS]
  | cons c rest =>
    have h0 : splitOnCharJS sep (c :: rest) =
        (if c = sep then [] :: splitOnCharJS sep rest
         else match splitOnCharJS sep rest with
              | s :: ss => (c :: s) :: ss
              | [] => [[c]]) := rfl
    rw [h0]
    by_cases hc : c = sep
    · rw [if_pos hc]; simp
    · rw [if_neg hc]
      cases hsp : splitOnCharJS sep rest with
      | nil => simp
      | cons s ss => simp

theorem firstChunk_le (sep : Char) : ∀ (text : JStr) (i : Nat),
    text[i]? = some sep →
    ∃ h t2, splitOnCharJS sep text = h :: t2 ∧ h.length ≤ i := by
  intro text
  induction text with
  | nil => intro i hi; simp at hi
  | cons c rest ih =>
    intro i hi
    have h0 : splitOnCharJS sep (c :: rest) =
        (if c = sep then [] :: splitOnCharJS sep rest
         else match splitOnCharJS sep rest with
              | s :: ss => (c :: s) :: ss
              | [] => [[c]]) := rfl
    by_cases hc : c = sep
    · exact ⟨[], splitOnCharJS sep rest, by rw [h0, if_pos hc], Nat.zero_le i⟩
    · cases i with
      | zero =>
        rw [List.getElem?_cons_zero] at hi
        exact absurd (Option.some.inj hi) hc
      | succ i2 =>
        rw [List.getElem?_cons_succ] at hi
        obtain ⟨h2, t2, heq, hle⟩ := ih i2 hi
        refine ⟨c :: h2, t2, ?_, by simpa using Nat.succ_le_succ hle⟩
        rw [h0, if_neg hc, heq]

theorem firstNonemptyChunk_le (sep : Char) : ∀ (text : JStr) (i j : Nat) (c : Char),
    text[i]? = some sep → j < i → text[j]? = some c → c ≠ sep →
    ∃ p t2, sepParts sep text = p :: t2 ∧ p ≠ [] ∧ p.length ≤ i := by
  intro text
  induction text with
  | nil => intro i j c hi _ _ _; simp at hi
  | cons c0 rest ih =>
    intro i j c hi hji hj hc
    by_cases hc0 : c0 = sep
    · cases j with
      | zero =>
        rw [List.getElem?_cons_zero] at hj
        exact absurd (by rw [← Option.some.inj hj]; exact hc0) hc
      | succ j2 =>
        cases i with
        | zero => omega
        | succ i2 =>
          rw [List.getElem?_cons_succ] at hi hj
          obtain ⟨p, t2, heq, hp, hple⟩ := ih i2 j2 c hi (by omega) hj hc
          refine ⟨p, t2, ?_, hp, by omega⟩
          have h0 : splitOnCharJS sep (c0 :: rest) = [] :: splitOnCharJS sep rest := by
            have h1 : splitOnCharJS sep (c0 :: rest) =
                (if c0 = sep then [] :: splitOnCharJS sep rest
                 else match splitOnCharJS sep rest with
                      | s :: ss => (c0 :: s) :: ss
                      | [] => [[c0]]) := rfl
            rw [h1, if_pos hc0]
          unfold sepParts at heq ⊢
          rw [h0, List.filter_cons]
          simp only [List.isEmpty_nil, Bool.not_true, Bool.false_eq_true, if_false]
          exact heq
    · cases i with
      | zero =>
        rw [List.getElem?_cons_zero] at hi
        exact absurd (Option.some.inj hi) hc0
      | succ i2 =>
        obtain ⟨h2, t2, heq, hle⟩ := firstChunk_le sep (c0 :: rest) (i2 + 1) hi
        cases hsp : splitOnCharJS sep rest with
        | nil => exact absurd hsp (splitOnCharJS_ne_nil sep rest)
        | cons s ss =>
          have h0 : splitOnCharJS sep (c0 :: rest) = (c0 :: s) :: ss := by
            have h1 : splitOnCharJS sep (c0 :: rest) =
                (if c0 = sep then [] :: splitOnCharJS sep rest
                 else match splitOnCharJS sep rest with
                      | s :: ss => (c0 :: s) :: ss
                      | [] => [[c0]]) := rfl
            rw [h1, if_neg hc0, hsp]
          rw [h0] at heq
          injection heq with heq1 _
          refine ⟨c0 :: s, ss.filter (fun p => !p.isEmpty), ?_, by simp, ?_⟩
          · unfold sepParts
            rw [h0, List.filter_cons]
            have hne : (!(c0 :: s).isEmpty) = true := rfl
            rw [hne, if_pos rfl]
          · rw [← heq1] at hle
            exact hle

theorem applyGo_first_fits {sep : Char} {limit : Nat} :
    ∀ (parts : List JStr) (p : JStr) (t : List JStr),
      parts.filter (fun q => !q.isEmpty) = p :: t → p.length ≤ limit →
      applyGo sep limit parts [] ≠ [] := by
  intro parts
  induction parts with
  | nil => intro p t h _; simp at h
  | cons q rest ih =>
    intro p t hf hle
    have h0 : applyGo sep limit (q :: rest) [] =
        (if q.isEmpty then applyGo sep limit rest []
         else if q.length > limit then [] else applyGo sep limit rest q) := rfl
    rw [h0]
    by_cases hq : q.isEmpty
    · rw [if_pos hq]
      rw [List.filter_cons] at hf
      have hcond : (!q.isEmpty) = false := by rw [hq]; rfl
      rw [hcond] at hf
      simp only [Bool.false_eq_true, if_false] at hf
      exact ih p t hf hle
    · have hqe : q.isEmpty = false := by
        cases hb : q.isEmpty
        · rfl
        · exact absurd hb hq
      rw [if_neg hq]
      rw [List.filter_cons] at hf
      have hcond : (!q.isEmpty) = true := by rw [hqe]; rfl
      rw [hcond, if_pos rfl] at hf
      injection hf with hf1 _
      rw [if_neg (by rw [hf1]; omega : ¬ q.length > limit)]
      exact applyGo_ne_nil rest q (by intro habs; subst habs; simp at hqe)

theorem applySeparator_ne_nil_of_cut {sep : Char} {text : JStr} {limit : Nat}
    (h : HasBoundaryCut sep text limit) : applySeparator sep text limit ≠ [] := by
  obtain ⟨i, hile, hget, j, c, hji, hgj, hcne⟩ := h
  obtain ⟨p, t2, hparts, _, hple⟩ := firstNonemptyChunk_le sep text i j c hget hji hgj hcne
  have hlt : i < text.length := by
    by_contra habs
    rw [List.getElem?_eq_none (by omega)] at hget
    exact Option.noConfusion hget
  have hmem : sep ∈ text := by
    have hv : text[i] = sep := by
      rw [List.getElem?_eq_getElem hlt] at hget
      exact Option.some.inj hget
    rw [← hv]
    exact List.getElem_mem hlt
  have hcont : text.contains sep = true := List.elem_eq_true_of_mem hmem
  have hgo : applySeparator sep text limit = applyGo sep limit (splitOnCharJS sep text) [] := by
    unfold applySeparator
    rw [if_neg (not_not_intro hcont)]
  rw [hgo]
  unfold sepParts at hparts
  exact applyGo_first_fits (splitOnCharJS sep text) p t2 hparts (le_trans hple hile)

theorem stripTrailingSeps_length (s : JStr) : (stripTrailingSeps s).length ≤ s.length := by
  unfold stripTrailingSeps
  rw [List.length_reverse]
  calc (s.reverse.dropWhile fun c => c = '-' || c = '_').length
      ≤ s.reverse.length :=
        ((List.dropWhile_suffix _).sublist).length_le
    _ = s.length := List.length_reverse s

theorem applySeparator_length (sep : Char) (text : JStr) (limit : Nat) :
    (applySeparator sep text limit).length ≤ limit := by
  unfold applySeparator
  by_cases h : ¬ text.contains sep
  · rw [if_pos h]; exact Nat.zero_le _
  · rw [if_neg h]; exact applyGo_length _ [] (Nat.zero_le _)

theorem trimToBoundary_length {text : JStr} {limit : Nat} (hl : 0 < limit) :
    (trimToBoundary text limit).length ≤ limit := by
  unfold trimToBoundary
  by_cases h1 : (text.isEmpty || decide (limit = 0) || decide (text.length ≤ limit)) = true
  · rw [if_pos h1]
    simp only [Bool.or_eq_true, decide_eq_true_eq] at h1
    rcases h1 with (h2 | h2) | h2
    · rw [List.isEmpty_iff.mp h2]; exact Nat.zero_le _
    · omega
    · exact h2
  · rw [if_neg h1]
    show (if ¬ (applySeparator '-' text limit).isEmpty then applySeparator '-' text limit
          else if ¬ (applySeparator '_' text limit).isEmpty then applySeparator '_' text limit
          else stripTrailingSeps (text.take limit)).length ≤ limit
    by_cases hH : (applySeparator '-' text limit).isEmpty
    · rw [if_neg (not_not_intro hH)]
      by_cases hU : (applySeparator '_' text limit).isEmpty
      · rw [if_neg (not_not_intro hU)]
        calc (stripTrailingSeps (text.take limit)).length
            ≤ (text.take limit).length := stripTrailingSeps_length _
          _ ≤ limit := List.length_take_le _ _
      · rw [if_pos hU]
        exact applySeparator_length _ _ _
    · rw [if_pos hH]
      exact applySeparator_length _ _ _

theorem applySeparator_joins {sep : Char} {text : JStr} {limit : Nat}
    (hc : text.contains sep = true) :
    ∃ k, applySeparator sep text limit = joinSep sep ((sepParts sep text).take k) := by
  unfold applySeparator
  rw [if_neg (not_not_intro hc)]
  obtain ⟨k, hk⟩ := @applyGo_joins sep limit (splitOnCharJS sep text) [] (by simp)
  refine ⟨k, ?_⟩
  have hj : joinSep sep ([] : List JStr) = [] := rfl
  rw [hj] at hk
  rw [hk, List.nil_append]
  rfl

theorem applySeparator_contains {sep : Char} {text : JStr} {limit : Nat}
    (h : applySeparator sep text limit ≠ []) : text.contains sep = true := by
  by_contra habs
  apply h
  unfold applySeparator
  rw [if_pos (fun h2 => habs h2)]

theorem applySeparator_cut_result {sep : Char} {text : JStr} {limit : Nat}
    (h : applySeparator sep text limit ≠ []) :
    ∃ k, 0 < k ∧ applySeparator sep text limit
      = joinSep sep ((sepParts sep text).take k) := by
  obtain ⟨k, hk⟩ := @applySeparator_joins sep text limit (applySeparator_contains h)
  cases k with
  | zero =>
    rw [List.take_zero] at hk
    exact absurd hk h
  | succ k2 => exact ⟨k2 + 1, Nat.succ_pos _, hk⟩

/-- C6: final length enforcement never exceeds the limit, and whenever the
input exceeds the limit and a usable hyphen or underscore boundary lies
within the limit (`HasBoundaryCut`: a separator occurrence at an index ≤
limit preceded by some non-separator character), the result is a separator-
join of a nonempty prefix of the input's nonempty separator-delimited
tokens — it never cuts in the middle of a token — with hyphen
decompositions preferred over underscore decompositions. -/
theorem claim_C6 (text : JStr) (limit : Nat) (hl : 0 < limit) :
    (enforceLengthLimit text limit).length ≤ limit ∧
    (limit < text.length →
      (HasBoundaryCut '-' text limit →
        ∃ k, 0 < k ∧ enforceLengthLimit text limit
          = joinSep '-' ((sepParts '-' text).take k)) ∧
      (HasBoundaryCut '_' text limit →
        (∃ k, 0 < k ∧ enforceLengthLimit text limit
          = joinSep '-' ((sepParts '-' text).take k)) ∨
        (∃ k, 0 < k ∧ enforceLengthLimit text limit
          = joinSep '_' ((sepParts '_' text).take k)))) := by
  constructor
  · by_cases hv : text.isEmpty
    · unfold enforceLengthLimit
      rw [if_pos hv, List.isEmpty_iff.mp hv]
      exact Nat.zero_le _
    · unfold enforceLengthLimit
      rw [if_neg hv, if_neg (by omega : ¬ limit = 0)]
      by_cases hle : text.length ≤ limit
      · rw [if_pos hle]; exact hle
      · rw [if_neg hle]
        show (if (trimToBoundary text limit).isEmpty then text.take limit
              else trimToBoundary text limit).length ≤ limit
        by_cases ht : (trimToBoundary text limit).isEmpty
        · rw [if_pos ht]; exact List.length_take_le _ _
        · rw [if_neg ht]; exact trimToBoundary_length hl
  · intro hbig
    have hv : ¬ (text.isEmpty = true) := by
      intro habs
      rw [List.isEmpty_iff.mp habs] at hbig
      simp at hbig
    have henf : enforceLengthLimit text limit =
        (if (trimToBoundary text limit).isEmpty then text.take limit
         else trimToBoundary text limit) := by
      unfold enforceLengthLimit
      rw [if_neg hv, if_neg (by omega : ¬ limit = 0), if_neg (by omega : ¬ text.length ≤ limit)]
    have htrim : trimToBoundary text limit =
        (if ¬ (applySeparator '-' text limit).isEmpty then applySeparator '-' text limit
         else if ¬ (applySeparator '_' text limit).isEmpty then applySeparator '_' text limit
         else stripTrailingSeps (text.take limit)) := by
      unfold trimToBoundary
      rw [if_neg (by
        simp only [Bool.or_eq_true, decide_eq_true_eq]
        push_neg
        refine ⟨⟨hv, by omega⟩, by omega⟩)]
    have hyphenCase : applySeparator '-' text limit ≠ [] →
        ∃ k, 0 < k ∧ enforceLengthLimit text limit
          = joinSep '-' ((sepParts '-' text).take k) := by
      intro hH
      have hHe : ¬ ((applySeparator '-' text limit).isEmpty = true) := by
        intro habs
        exact hH (List.isEmpty_iff.mp habs)
      have ht : trimToBoundary text limit = applySeparator '-' text limit := by
        rw [htrim, if_pos hHe]
      have hte : ¬ ((trimToBoundary text limit).isEmpty = true) := by
        rw [ht]; exact hHe
      obtain ⟨k, hk0, hk⟩ := applySeparator_cut_result hH
      exact ⟨k, hk0, by rw [henf, if_neg hte, ht, hk]⟩
    constructor
    · intro hcut
      exact hyphenCase (applySeparator_ne_nil_of_cut hcut)
    · intro hcut
      by_cases hH : applySeparator '-' text limit = []
      · right
        have hU : applySeparator '_' text limit ≠ [] :=
          applySeparator_ne_nil_of_cut hcut
        have hHe : (applySeparator '-' text limit).isEmpty = true := by
          rw [hH]; rfl
        have hUe : ¬ ((applySeparator '_' text limit).isEmpty = true) := by
          intro habs
          exact hU (List.isEmpty_iff.mp habs)
        have ht : trimToBoundary text limit = applySeparator '_' text limit := by
          rw [htrim, if_neg (not_not_intro hHe), if_pos hUe]
        have hte : ¬ ((trimToBoundary text limit).isEmpty = true) := by
          rw [ht]; exact hUe
        obtain ⟨k, hk0, hk⟩ := applySeparator_cut_result hU
        exact ⟨k, hk0, by rw [henf, if_neg hte, ht, hk]⟩
      · exact Or.inl (hyphenCase hH)

/-- Witness instantiating C6 at a concrete hyphenated name with limit 10. -/
theorem claim_C6_witness :
    (enforceLengthLimit "alpha-beta-gamma".toList 10).length ≤ 10 ∧
    ∃ k, 0 < k ∧ enforceLengthLimit "alpha-beta-gamma".toList 10
      = joinSep '-' ((sepParts '-' "alpha-beta-gamma".toList).take k) := by
  have h := claim_C6 "alpha-beta-gamma".toList 10 (by decide)
  exact ⟨h.1, (h.2 (by decide)).1
    ⟨5, by decide, by decide, 0, 'a', by decide, by decide, by decide⟩⟩

theorem quoteForShell_eq (v : JStr) :
    quoteForShell v = shellQuotedWith ['"', '\\', Char.ofNat 96, '$'] v := by
  unfold quoteForShell shellQuotedWith
  have hfun : (fun c => if c = '"' || c = '\\' || c = Char.ofNat 96 || c = '$'
        then ['\\', c] else [c])
      = (fun c => if c ∈ ['"', '\\', Char.ofNat 96, '$'] then ['\\', c] else [c]) := by
    funext c
    by_cases h1 : c = '"'
    · simp [h1]
    · by_cases h2 : c = '\\'
      · simp [h2]
      · by_cases h3 : c = Char.ofNat 96
        · simp [h3]
        · by_cases h4 : c = '$'
          · simp [h4]
          · simp [h1, h2, h3, h4]
  rw [hfun]

/-- C3 fails as stated: the code escapes the dollar sign as well, so a path
containing `$` is not quoted with only the double-quote/backslash/backtick
escape set of the claim. -/
theorem claim_C3_counterexample :
    revertCommandFor "/docs/a$b.txt".toList "/docs/a.txt".toList ≠
      "mv ".toList
        ++ shellQuotedWith ['"', '\\', Char.ofNat 96] "/docs/a$b.txt".toList
        ++ [' ']
        ++ shellQuotedWith ['"', '\\', Char.ofNat 96] "/docs/a.txt".toList := by
  decide

/-- C3 as amended: each revert command (absolute and relative form) is
exactly `mv "<new-path>" "<original-path>"` where inside the double quotes
exactly the embedded double-quote, backslash, backtick, and dollar-sign
characters are backslash-escaped and every other character appears
unchanged. -/
theorem claim_C3 (newAbs origAbs newRel origRel : JStr) :
    revertCommandFor newAbs origAbs
      = "mv ".toList
        ++ shellQuotedWith ['"', '\\', Char.ofNat 96, '$'] newAbs
        ++ [' ']
        ++ shellQuotedWith ['"', '\\', Char.ofNat 96, '$'] origAbs ∧
    revertCommandFor newRel origRel
      = "mv ".toList
        ++ shellQuotedWith ['"', '\\', Char.ofNat 96, '$'] newRel
        ++ [' ']
        ++ shellQuotedWith ['"', '\\', Char.ofNat 96, '$'] origRel := by
  constructor
  · unfold revertCommandFor
    rw [quoteForShell_eq, quoteForShell_eq]
  · unfold revertCommandFor
    rw [quoteForShell_eq, quoteForShell_eq]

/-- C5 fails as stated: for an invalid base limit (NaN/Infinity/non-number,
modelled `none`) the safe limit defaults to 20 and the extraction ceiling
is 40, not 120. -/
theorem claim_C5_counterexample :
    candidateLimitOf none = 40 ∧ candidateLimitOf none ≠ 120 := by
  exact ⟨rfl, by decide⟩

/-- C5 as amended: for a finite base limit of at least 1 the ceiling is
`floor(limit) + max(20, floor(limit)/4)` (a 25% allowance, but never less
than 20); for a finite limit strictly between 0 and 1 (floor 0) the ceiling
is 120; for an invalid limit (non-finite or non-positive) the safe limit
defaults to 20, giving ceiling 40. -/
theorem claim_C5 (chars : Option ℚ) :
    candidateLimitOf chars =
      (match chars with
       | some q =>
         if 0 < q then
           (if ⌊q⌋ = 0 then 120
            else (⌊q⌋).toNat + max 20 ((⌊q⌋).toNat / 4))
         else 40
       | none => 40) := by
  cases chars with
  | none => rfl
  | some q =>
    simp only [candidateLimitOf, safeCharLimitOf]
    by_cases hq : 0 < q
    · rw [if_pos hq, if_pos hq]
      by_cases hf : ⌊q⌋ = 0
      · have h2 : (⌊q⌋).toNat = 0 := by rw [hf]; rfl
        simp [h2, hf]
      · have h0 : (0 : ℤ) ≤ ⌊q⌋ := Int.floor_nonneg.mpr (le_of_lt hq)
        have h2 : (⌊q⌋).toNat ≠ 0 := by omega
        rw [if_neg hf, if_neg h2]
    · rw [if_neg hq, if_neg hq]
      rfl

/-- C4: in pitch-deck mode, a model reply that is empty or begins with the
token SKIP (case-insensitive, word-bounded) after whitespace normalization
makes name synthesis return a deliberate skip: no filename, `skipped`,
`pitchDeckSkip = true`, null `finalName` and null `candidate` (extraction
never contributes one), and the caller's guard applies no rename. -/
theorem claim_C4 (opts : NameOptions) (modelResult : Option JStr)
    (caseFn : JStr → JStr) (showNum : Option ℚ → JStr)
    (hmode : opts.pitchDeckMode = true)
    (hskip : (skipCheckOf modelResult).isEmpty = true ∨
      startsWithSkipToken (skipCheckOf modelResult) = true) :
    ∃ r, getNewName opts modelResult caseFn showNum = some r ∧
      r.filename = none ∧ r.skipped = true ∧ r.context.pitchDeckSkip = true ∧
      r.context.finalName = none ∧ r.context.candidate = none ∧
      proceedsToRename (getNewName opts modelResult caseFn showNum) = false := by
  have hcond : (opts.pitchDeckMode &&
      ((skipCheckOf modelResult).isEmpty
        || startsWithSkipToken (skipCheckOf modelResult))) = true := by
    rw [hmode]
    rcases hskip with h | h <;> simp [h]
  have heq : getNewName opts modelResult caseFn showNum
      = some (skipResultOf opts modelResult showNum) := by
    unfold getNewName
    rw [if_pos hcond]
  refine ⟨skipResultOf opts modelResult showNum, heq, rfl, rfl, rfl, rfl, rfl, ?_⟩
  rw [heq]
  rfl

/-- Witness instantiating C4 at a concrete option bag and the reply
`"SKIP"`. -/
theorem claim_C4_witness :
    ∃ r, getNewName demoPitchOptions (some "SKIP".toList)
        (fun s => s) (fun _ => "30".toList) = some r ∧
      r.filename = none ∧ r.skipped = true ∧ r.context.pitchDeckSkip = true ∧
      r.context.finalName = none ∧ r.context.candidate = none ∧
      proceedsToRename (getNewName demoPitchOptions (some "SKIP".toList)
        (fun s => s) (fun _ => "30".toList)) = false :=
  claim_C4 demoPitchOptions (some "SKIP".toList) (fun s => s) (fun _ => "30".toList)
    rfl (Or.inr (by decide))

theorem budgetStage3_length (mpc : Nat) (p : JStr) :
    (budgetStage3 mpc p).1.length ≤ mpc := by
  unfold budgetStage3
  by_cases h : p.length > mpc
  · rw [if_pos h]; exact List.length_take_le _ _
  · rw [if_neg h]
    show p.length ≤ mpc
    omega

theorem budgetStage1_flag (s0 : JStr) (mcc : Nat) :
    (budgetStage1 s0 mcc).1 ≠ s0 → (budgetStage1 s0 mcc).2 = true := by
  unfold budgetStage1
  by_cases h : ((!s0.isEmpty) && decide (s0.length > mcc)) = true
  · rw [if_pos h]; intro _; rfl
  · rw [if_neg h]; intro hne; exact absurd rfl hne

theorem budgetStage2_cases (assemble : JStr → Bool → JStr) (mpc : Nat) (st : JStr × Bool) :
    (budgetStage2 assemble mpc st).2.1 = true ∨
    ((budgetStage2 assemble mpc st).1 = st.1 ∧
     (budgetStage2 assemble mpc st).2.1 = st.2) := by
  unfold budgetStage2
  by_cases h1 : (assemble st.1 st.2).length > mpc ∧ st.1 ≠ []
  · rw [if_pos h1]
    by_cases h2 : reShrink st.1 ((assemble st.1 st.2).length - mpc) ≠ st.1
    · rw [if_pos h2]
      exact Or.inl rfl
    · rw [if_neg h2]
      exact Or.inr ⟨rfl, rfl⟩
  · rw [if_neg h1]
    exact Or.inr ⟨rfl, rfl⟩

theorem budget_flag (assemble : JStr → Bool → JStr) (s0 : JStr) (mcc mpc : Nat) :
    (budgetStage2 assemble mpc (budgetStage1 s0 mcc)).1 ≠ s0 →
    (budgetStage2 assemble mpc (budgetStage1 s0 mcc)).2.1 = true := by
  intro hne
  rcases budgetStage2_cases assemble mpc (budgetStage1 s0 mcc) with h | ⟨h1, h2⟩
  · exact h
  · rw [h2]
    rw [h1] at hne
    exact budgetStage1_flag s0 mcc hne

/-- C2: the assembled prompt never exceeds the total ceiling, the
content-truncated flag is set whenever the final content snippet differs
from the caller's content (pre-shrink to the content ceiling or overflow
re-shrink), and every result's context reports exactly this prompt length
and this flag. -/
theorem claim_C2 (opts : NameOptions) (modelResult : Option JStr)
    (caseFn : JStr → JStr) (showNum : Option ℚ → JStr) :
    (promptBudget opts showNum).prompt.length ≤ maxPromptCharsOf opts ∧
    ((promptBudget opts showNum).contentSnippet ≠ opts.content.getD [] →
      (promptBudget opts showNum).contentTruncated = true) ∧
    (∀ r, getNewName opts modelResult caseFn showNum = some r →
      r.context.promptLength = (promptBudget opts showNum).prompt.length ∧
      r.context.contentTruncated = (promptBudget opts showNum).contentTruncated) := by
  refine ⟨?_, ?_, ?_⟩
  · simp only [promptBudget]
    exact budgetStage3_length _ _
  · simp only [promptBudget]
    exact budget_flag _ _ _ _
  · intro r hr
    unfold getNewName at hr
    by_cases hc : (opts.pitchDeckMode &&
        ((skipCheckOf modelResult).isEmpty
          || startsWithSkipToken (skipCheckOf modelResult))) = true
    · rw [if_pos hc] at hr
      injection hr with h
      subst h
      constructor
      · simp only [skipResultOf, sharedContextOf]
      · simp only [skipResultOf, sharedContextOf]
    · rw [if_neg hc] at hr
      unfold normalResultOf at hr
      cases hfin : finalTripleOf opts modelResult caseFn with
      | none =>
        rw [hfin] at hr
        exact Option.noConfusion hr
      | some ft =>
        rw [hfin] at hr
        injection hr with h
        subst h
        constructor
        · simp only [sharedContextOf]
        · simp only [sharedContextOf]

set_option maxRecDepth 100000 in
set_option maxHeartbeats 2000000 in
/-- Witness instantiating C2 where the snippet really was shortened and a
result is returned. -/
theorem claim_C2_witness :
    (promptBudget demoBudgetOptions demoShowNum).prompt.length
      ≤ maxPromptCharsOf demoBudgetOptions ∧
    (promptBudget demoBudgetOptions demoShowNum).contentTruncated = true ∧
    ∃ r, getNewName demoBudgetOptions (some "Filename: Report".toList)
        (fun s => s) demoShowNum = some r ∧
      r.context.promptLength = (promptBudget demoBudgetOptions demoShowNum).prompt.length ∧
      r.context.contentTruncated
        = (promptBudget demoBudgetOptions demoShowNum).contentTruncated := by
  have h := claim_C2 demoBudgetOptions (some "Filename: Report".toList)
    (fun s => s) demoShowNum
  refine ⟨h.1, h.2.1 (by decide), ?_⟩
  have hsome : (getNewName demoBudgetOptions (some "Filename: Report".toList)
      (fun s => s) demoShowNum).isSome = true := by decide
  obtain ⟨r, hval⟩ := Option.isSome_iff_exists.mp hsome
  exact ⟨r, hval, (h.2.2 r hval).1, (h.2.2 r hval).2⟩

end AiRenamer
